import Mathlib

/-!
# Verification of the WikiHelper core against its specification

Shallow embedding of the WikiHelper repository's core components:

* `wikiops/refs.py` — reference extraction (`extract_refs_from_text`) and
  restoration (`restore_refs_in_text`);
* `wikiops/storage.py` — slugification, path safety (`safe_workspace_path`),
  workspace creation (`create_workspace`) and listing (`list_workspaces`);
* `src/wikiops/utils.py` — the underscore-inclusive `slugify_title` variant;
* the newer `update_workspace` (with `status`), which is declared by
  `src/wikiops/__init__.py` and called by the routes layer but whose module
  body is not in the tree; it is modelled from the spec, see `Spec.update_workspace`.

Strings are embedded as `List Char` (Python `str` is a sequence of code
points; all operations used by the code are code-point-wise).
-/

namespace WikiHelper

/-! ## Character classes and Python string primitives -/

/-- Code points below 128: the characters kept by `str.encode("ascii", "ignore")`. -/
def isAsciiChar (c : Char) : Bool := c.toNat < 128

/-- The character class `[a-z0-9]` of `storage.py`'s regex `[^a-z0-9]+`. -/
def allowedS (c : Char) : Bool :=
  ('a' ≤ c && c ≤ 'z') || ('0' ≤ c && c ≤ '9')

/-- The character class `[a-z0-9_]` of `utils.py`'s regex `[^a-z0-9_]+`. -/
def allowedU (c : Char) : Bool :=
  ('a' ≤ c && c ≤ 'z') || ('0' ≤ c && c ≤ '9') || c = '_'

/-- Models `unicodedata.normalize("NFKD", ·)` applied pointwise.  ASCII
characters have no decomposition and combining class 0, so NFKD is the
identity on them; the table lists the decompositions of the non-ASCII
characters exercised by the spec's examples (é → e + U+0301, ü → u + U+0308
and their uppercase forms); any other character is kept unchanged (every
property proved below depends only on the ASCII part of the table, since the
next pipeline stage drops all non-ASCII code points). -/
def nfkdChar (c : Char) : List Char :=
  if c.toNat < 128 then [c]
  else if c = 'é' then ['e', Char.ofNat 0x301]
  else if c = 'É' then ['E', Char.ofNat 0x301]
  else if c = 'ü' then ['u', Char.ofNat 0x308]
  else if c = 'Ü' then ['U', Char.ofNat 0x308]
  else [c]

/-- `re.sub(r"[^…]+", "-", s)`: replace every maximal run of characters not
satisfying `allowed` by a single `'-'`.  The boolean `inRun` records whether
the previous character was part of such a run (so the run produces exactly
one hyphen). -/
def subRuns (allowed : Char → Bool) (inRun : Bool) : List Char → List Char
  | [] => []
  | c :: cs =>
    if allowed c then c :: subRuns allowed false cs
    else if inRun then subRuns allowed true cs
    else '-' :: subRuns allowed true cs

/-- `re.sub(r"-+", "-", s)`: collapse every run of hyphens to a single hyphen. -/
def collapseHyphens (inRun : Bool) : List Char → List Char
  | [] => []
  | c :: cs =>
    if c = '-' then
      if inRun then collapseHyphens true cs
      else '-' :: collapseHyphens true cs
    else c :: collapseHyphens false cs

/-- Remove trailing `'-'` characters (the right half of `str.strip("-")`). -/
def rstripHyphens : List Char → List Char
  | [] => []
  | c :: t =>
    match rstripHyphens t with
    | [] => if c = '-' then [] else [c]
    | r => c :: r

/-- `str.strip("-")`: drop leading and trailing hyphens. -/
def stripHyphens (l : List Char) : List Char :=
  rstripHyphens (l.dropWhile (fun c => c = '-'))

/-- `true` iff the text has no two adjacent hyphens (the effect of collapsing
`-+` runs). -/
def noDouble : List Char → Bool
  | [] => true
  | [_] => true
  | a :: b :: t => !(a = '-' && b = '-') && noDouble (b :: t)

namespace Storage

/-- `wikiops/storage.py` `slugify_title`: NFKD-normalize, drop non-ASCII,
lowercase, replace runs of `[^a-z0-9]+` by `'-'`, collapse `-+`, strip `'-'`. -/
def slugify_title (title : List Char) : List Char :=
  let normalized := title.flatMap nfkdChar
  let ascii_str := normalized.filter isAsciiChar
  let lower := ascii_str.map Char.toLower
  let slug := subRuns allowedS false lower
  let slug := collapseHyphens false slug
  stripHyphens slug

end Storage

namespace Utils

/-- `src/wikiops/utils.py` `slugify_title`: same pipeline as the `storage.py`
variant but with the underscore-inclusive class `[^a-z0-9_]+`. -/
def slugify_title (title : List Char) : List Char :=
  let normalized := title.flatMap nfkdChar
  let ascii_str := normalized.filter isAsciiChar
  let lower := ascii_str.map Char.toLower
  let slug := subRuns allowedU false lower
  let slug := collapseHyphens false slug
  stripHyphens slug

end Utils

/-! ## Reference extraction and restoration (`wikiops/refs.py`)

The module uses `wikitextparser` only to obtain the `(start, end)` spans of
the `<ref>` tags (`[t.span for t in wtp.parse(text).get_tags() if t.name ==
"ref"]`); everything after that is plain string manipulation.  The embedding
therefore takes the span list produced by the external parser as an argument;
the spec (§9) describes this exact abstraction ("a dedicated tag-span scanner
producing `(start, end)` offsets"). -/

/-- `f"{n}"` for a decimal digit value (the characters written by Python's
number formatting). -/
def digitChar (n : Nat) : Char :=
  match n with
  | 0 => '0' | 1 => '1' | 2 => '2' | 3 => '3' | 4 => '4'
  | 5 => '5' | 6 => '6' | 7 => '7' | 8 => '8' | _ => '9'

/-- Fueled decimal formatting; `fuel` bounds the recursion depth (`n` itself
is always enough since `n / 10 < n` for `n ≥ 10`). -/
def toDigitsGo : Nat → Nat → List Char
  | 0, _ => []
  | fuel + 1, n =>
    if n < 10 then [digitChar n]
    else toDigitsGo fuel (n / 10) ++ [digitChar (n % 10)]

/-- The decimal representation `f"{n}"` of a natural number. -/
def toDigits (n : Nat) : List Char := toDigitsGo (n + 1) n

/-- The numeric value of a decimal digit string (left fold); used to show the
decimal representation is injective. -/
def digitsVal (l : List Char) : Nat :=
  l.foldl (fun a c => a * 10 + (c.toNat - 48)) 0

/-- The map key `f"ref{i}"`. -/
def refKey (i : Nat) : List Char := 'r' :: 'e' :: 'f' :: toDigits i

/-- The placeholder token `f"[ref{i}]"`. -/
def placeholder (i : Nat) : List Char := '[' :: (refKey i ++ [']'])

/-- `text[s:e]` for `0 ≤ s ≤ e ≤ len(text)`. -/
def sliceStr (text : List Char) (s e : Nat) : List Char :=
  (text.drop s).take (e - s)

/-- The `refs_map` dictionary built by the extraction loop: for the `j`-th
span (numbering from `i`), the exact original slice `text[start:end]`.
Python dict insertion order is preserved, so an association list is a
faithful model (all keys are distinct). -/
def buildMap (text : List Char) : List (Nat × Nat) → Nat → List (List Char × List Char)
  | [], _ => []
  | (s, e) :: r, i => (refKey i, sliceStr text s e) :: buildMap text r (i + 1)

/-- The replacement loop `for start, end, placeholder in reversed(replacements):
modified = modified[:start] + placeholder + modified[end:]`.  Processing the
reversed list with an accumulator is exactly this recursion: the replacement
for the first span is applied last, to the text in which all later spans have
already been replaced, so its indices are still valid. -/
def applyReplacements : List (Nat × Nat) → Nat → List Char → List Char
  | [], _, text => text
  | (s, e) :: r, i, text =>
    let m := applyReplacements r (i + 1) text
    m.take s ++ placeholder i ++ m.drop e

/-- `extract_refs_from_text` of `wikiops/refs.py`.  `tags` is the list of
`t.span` values of the `<ref>` tags found by `wikitextparser`; the function
sorts them by start offset (`tags.sort(key=lambda t: t.span[0])`), stores the
exact original slice for each under `ref1, ref2, …` and replaces the spans
from last to first with the placeholder tokens. -/
def extract_refs_from_text (tags : List (Nat × Nat)) (text : List Char) :
    List Char × List (List Char × List Char) :=
  let sorted := List.insertionSort (fun a b => a.1 ≤ b.1) tags
  (applyReplacements sorted 1 text, buildMap text sorted 1)

instance : IsTotal (Nat × Nat) (fun a b => a.1 ≤ b.1) :=
  ⟨fun a b => Nat.le_total a.1 b.1⟩

instance : IsTrans (Nat × Nat) (fun a b => a.1 ≤ b.1) :=
  ⟨fun _ _ _ => Nat.le_trans⟩

/-- Matching of the regex `\[(ref\d+)\]` immediately after an opening `'['`:
succeeds when the remaining text starts with `ref`, one or more decimal
digits (greedily) and `']'`, returning the digit group and the rest of the
text.  (`\d` is modelled as the ASCII digits; the map keys produced by
extraction are ASCII decimals, and a non-ASCII-digit "placeholder" can never
be a key, so it is left verbatim either way.) -/
def pMatch (cs : List Char) : Option (List Char × List Char) :=
  match cs with
  | c1 :: c2 :: c3 :: rest =>
    if c1 = 'r' ∧ c2 = 'e' ∧ c3 = 'f'
        ∧ (rest.dropWhile Char.isDigit).head? = some ']'
        ∧ (rest.takeWhile Char.isDigit).isEmpty = false then
      some (rest.takeWhile Char.isDigit, (rest.dropWhile Char.isDigit).tail)
    else none
  | _ => none

/-- The replacement `_repl` for a match with digit group `ds`:
`refs_map.get(key, match.group(0))` — the stored string when the key is in
the map, the matched token verbatim otherwise. -/
def lookupSub (m : List (List Char × List Char)) (ds : List Char) : List Char :=
  match List.lookup ('r' :: 'e' :: 'f' :: ds) m with
  | some v => v
  | none => '[' :: 'r' :: 'e' :: 'f' :: (ds ++ [']'])

/-- The left-to-right scan of `re.sub(PLACEHOLDER_PATTERN, _repl, text)`:
at each `'['` try to match `\[(ref\d+)\]`; on a match emit
`refs_map.get(key, match.group(0))` and continue after the match; otherwise
emit the character and continue.  `fuel` bounds the number of steps (the
initial length of the text is always enough, each step consumes at least one
character). -/
def goRestore (m : List (List Char × List Char)) : Nat → List Char → List Char
  | _, [] => []
  | 0, l => l
  | fuel + 1, c :: cs =>
    if c = '[' then
      match pMatch cs with
      | some (ds, rest) => lookupSub m ds ++ goRestore m fuel rest
      | none => c :: goRestore m fuel cs
    else c :: goRestore m fuel cs

/-- `restore_refs_in_text` of `wikiops/refs.py`: substitute every `[refN]`
token whose key is in `refs_map` by the stored string, keeping unmatched
tokens verbatim. -/
def restore_refs_in_text (m : List (List Char × List Char)) (text : List Char) : List Char :=
  goRestore m text.length text

/-- `true` iff the text contains a (complete) match of `\[(ref\d+)\]`. -/
def hasPH : List Char → Bool
  | [] => false
  | c :: cs => (if c = '[' then (pMatch cs).isSome else false) || hasPH cs

/-- Well-formedness of a span list against a text, scanning from cursor `c`:
spans are ordered, non-overlapping and within bounds (`c ≤ s ≤ e`, chained,
ending at or before `len`).  This is the shape of the span lists produced by
the tag scanner. -/
def spansOk (c : Nat) : List (Nat × Nat) → Nat → Bool
  | [], len => decide (c ≤ len)
  | (s, e) :: r, len => decide (c ≤ s) && decide (s ≤ e) && spansOk e r len

/-- `true` iff none of the pieces of the text outside the spans contains a
placeholder-pattern match. -/
def gapsClean (text : List Char) (c : Nat) : List (Nat × Nat) → Bool
  | [] => !hasPH (text.drop c)
  | (s, e) :: r => !hasPH (sliceStr text c s) && gapsClean text e r

/-- A sanity predicate on a scanner span: the slice looks like a `<ref>` tag
(opening `<ref` and a self-closing or explicit close).  Used to show that
counterexample spans are realistic scanner output. -/
def isRefSlice (l : List Char) : Bool :=
  "<ref".data.isPrefixOf l && ("/>".data.isSuffixOf l || "</ref>".data.isSuffixOf l)

/-- The editable text as a flat interleaving of the gap slices of `text` with
the placeholder tokens, starting at cursor `c` and key index `i`.  The
extraction theorem below shows `applyReplacements` produces exactly this. -/
def chunks (text : List Char) (c : Nat) : List (Nat × Nat) → Nat → List Char
  | [], _ => text.drop c
  | (s, e) :: r, i => sliceStr text c s ++ placeholder i ++ chunks text e r (i + 1)

/-- The Slug Generator written from the spec's words (§4.3): "Unicode-normalizes
(compatibility decomposition) the title, drops all non-ASCII remnants,
lowercases, replaces every run of characters outside `[a-z0-9_]` with a single
hyphen, collapses repeated hyphens, and trims leading/trailing hyphens."
Used to compare the spec's description with the source's `Utils.slugify_title`. -/
def slugifySpec (title : List Char) : List Char :=
  stripHyphens
    (collapseHyphens false
      (subRuns allowedU false
        (((title.flatMap nfkdChar).filter isAsciiChar).map Char.toLower)))

/-! ## Path safety (`wikiops/storage.py` `safe_workspace_path`)

Filesystem paths are embedded as lists of name components of an absolute
path, rendered as `"/" + "/".join(components)`.  `Path.resolve()` is
modelled without symlinks: the root is given in canonical form and the slug
that reaches the join contains no separator and no `".."`, so resolution is
the identity; `pathlib` collapses a single-dot component at the join
(`Path("/a") / "." == Path("/a")`). -/

/-- Python's substring test `pat in s`. -/
def hasSubstr (pat : List Char) : List Char → Bool
  | [] => pat.isEmpty
  | c :: t => pat.isPrefixOf (c :: t) || hasSubstr pat t

/-- The reserved Windows device names of `safe_workspace_path`. -/
def reservedNames : List (List Char) :=
  ["con".data, "prn".data, "aux".data, "nul".data,
   "com1".data, "com2".data, "com3".data, "com4".data, "com5".data,
   "com6".data, "com7".data, "com8".data, "com9".data,
   "lpt1".data, "lpt2".data, "lpt3".data, "lpt4".data, "lpt5".data,
   "lpt6".data, "lpt7".data, "lpt8".data, "lpt9".data]

/-- A filesystem path as the component list of an absolute path. -/
abbrev FsPath := List (List Char)

/-- `str()` of an absolute path: `"/"` for the empty component list,
`"/a/b"` otherwise. -/
def renderPath (p : FsPath) : List Char :=
  if p.isEmpty then ['/'] else p.foldl (fun acc comp => acc ++ '/' :: comp) []

/-- `Path.parent`: drop the last component (the parent of `"/"` is `"/"`). -/
def parentPath (p : FsPath) : FsPath := p.dropLast

/-- `root / slug` for a slug without separators: appends a component, except
that `pathlib` collapses a single-dot component. -/
def pyJoin (root : FsPath) (slug : List Char) : FsPath :=
  if slug = ['.'] then root else root ++ [slug]

/-- `safe_workspace_path` of `wikiops/storage.py`: reject slugs containing
`".."`, `"/"` or `"\"`, reserved device names (case-insensitively) and the
empty slug; otherwise join with the root, resolve, and apply the code's
containment check (`startswith(str(root)+sep)` / equality / parent) verbatim. -/
def safe_workspace_path (root : FsPath) (slug : List Char) : Option FsPath :=
  if hasSubstr "..".data slug || hasSubstr "/".data slug || hasSubstr "\\".data slug then
    none
  else if reservedNames.contains (slug.map Char.toLower) then
    none
  else if slug.isEmpty then
    none
  else
    let workspace_path := pyJoin root slug
    let resolved := workspace_path
    let root_resolved := root
    if !(renderPath root_resolved ++ ['/']).isPrefixOf (renderPath resolved)
        && resolved ≠ root_resolved then
      if parentPath resolved ≠ root_resolved then none else some resolved
    else
      some resolved

/-! ## Workspace listing (`wikiops/storage.py` `list_workspaces`) -/

/-- The fields of a parsed `meta.json` that `list_workspaces` reads with
`meta.get(key, default)`; `none` models a missing key. -/
structure MetaJson where
  title_original : Option String
  created_at : Option String
  updated_at : Option String
  refs_count : Option Nat
deriving DecidableEq, Repr

/-- One entry of `root.iterdir()`: its name, whether it is a directory, and
the result of loading `meta.json` (`none` models a missing file or a
`json.JSONDecodeError`/`OSError` during `read_json` — both are skipped by the
same `try`/`except`). -/
structure DirEntry where
  name : String
  isDir : Bool
  meta : Option MetaJson
deriving DecidableEq, Repr

/-- The workspace-info dictionary appended by `list_workspaces`. -/
structure WsInfo where
  slug : String
  title : String
  created_at : String
  updated_at : String
  refs_count : Nat
  path : FsPath
deriving DecidableEq, Repr

/-- The sort order of `workspaces.sort(key=lambda w: w["updated_at"],
reverse=True)`: by `updated_at` descending. -/
def byUpdatedDesc (a b : WsInfo) : Prop := b.updated_at ≤ a.updated_at

instance : DecidableRel byUpdatedDesc := fun a b =>
  inferInstanceAs (Decidable (b.updated_at ≤ a.updated_at))

instance : IsTotal WsInfo byUpdatedDesc :=
  ⟨fun a b => (le_total b.updated_at a.updated_at).imp id id⟩

instance : IsTrans WsInfo byUpdatedDesc :=
  ⟨fun _ _ _ h h' => le_trans h' h⟩

/-- The dictionary built for a directory entry with parsed metadata `mt`. -/
def mkWsInfo (root : FsPath) (e : DirEntry) (mt : MetaJson) : WsInfo :=
  { slug := e.name
    title := mt.title_original.getD e.name
    created_at := mt.created_at.getD ""
    updated_at := mt.updated_at.getD ""
    refs_count := mt.refs_count.getD 0
    path := root ++ [e.name.data] }

/-- `list_workspaces` of `wikiops/storage.py`: if the root does not exist
return `[]`; otherwise keep the subdirectories whose `meta.json` loads,
silently skipping the rest, and sort by `updated_at` descending. -/
def list_workspaces (root : FsPath) (rootExists : Bool) (entries : List DirEntry) :
    List WsInfo :=
  if !rootExists then []
  else
    let workspaces := entries.filterMap (fun e =>
      if e.isDir then e.meta.map (mkWsInfo root e) else none)
    List.insertionSort byUpdatedDesc workspaces

/-! ## Workspace creation (`wikiops/storage.py` `create_workspace`)

The on-disk state is embedded as a map from workspace path to the artifact
record; `atomic_write`/`write_json` become field updates (their atomicity is
not at issue in the claims proved here). -/

/-- The `meta.json` dictionary written by `create_workspace` (the old
`storage.py` writes exactly these five keys). -/
structure MetaRecC where
  title_original : String
  slug : String
  created_at : String
  updated_at : String
  refs_count : Nat
deriving DecidableEq, Repr

/-- The artifacts of one workspace directory; `none` models an absent file. -/
structure WsDirC where
  original : Option (List Char)
  refs : Option (List (List Char × List Char))
  editable : Option (List Char)
  restored : Option (List Char)
  meta : Option MetaRecC
deriving DecidableEq, Repr

/-- The storage root's state: contents of each workspace directory by path. -/
def StoreC := FsPath → Option WsDirC

/-- Writing a whole workspace directory. -/
def setStore (store : StoreC) (p : FsPath) (d : WsDirC) : StoreC :=
  fun q => if q = p then some d else store q

/-- The two `ValueError`s raised by `create_workspace`. -/
inductive CreateErr where
  | invalidTitle
  | invalidPath
deriving DecidableEq, Repr

/-- `create_workspace` of `wikiops/storage.py`: slugify the title (empty →
`ValueError`), validate the path (`None` → `ValueError`), and if
`original.wiki` does not yet exist, extract the references and write the five
artifacts (Document copy, refs map, editable text, restored text = Document,
metadata with both timestamps `now`); otherwise touch nothing and report
`is_new = False`.  `tags` is the span list the external tag scanner yields
for `wikitext`; `now` is the `datetime.utcnow()` string. -/
def create_workspace (store : StoreC) (root : FsPath) (title : String)
    (wikitext : List Char) (tags : List (Nat × Nat)) (now : String) :
    Except CreateErr (String × FsPath × Bool × StoreC) :=
  let slug := Storage.slugify_title title.data
  if slug.isEmpty then .error .invalidTitle
  else
    match safe_workspace_path root slug with
    | none => .error .invalidPath
    | some workspace_path =>
      let is_new := !((store workspace_path).bind (·.original)).isSome
      if is_new then
        let extracted := extract_refs_from_text tags wikitext
        let dir : WsDirC :=
          { original := some wikitext
            refs := some extracted.2
            editable := some extracted.1
            restored := some wikitext
            meta := some { title_original := title, slug := String.mk slug,
                           created_at := now, updated_at := now,
                           refs_count := extracted.2.length } }
        .ok (String.mk slug, workspace_path, true, setStore store workspace_path dir)
      else
        .ok (String.mk slug, workspace_path, false, store)

namespace Spec

/-! ## Workspace update — modelled from the spec

`src/wikiops/__init__.py` imports `update_workspace` from its `storage`
module and `src/main_app/workspaces/routes.py` calls it as
`update_workspace(workspace_path, editable_content, status=status)`, but that
module's body is not in the tree (the old `wikiops/storage.py` has an earlier
`update_workspace` without the `status` parameter and without
`WorkspaceNotFoundError`).  The operation is therefore modelled from the
spec, §4.2 `Update`. -/

/-- WorkspaceMetadata (§3): identity and bookkeeping record with a
user-settable status string. -/
structure Meta where
  title_original : String
  slug : String
  created_at : String
  updated_at : String
  refs_count : Nat
  status : String
deriving DecidableEq, Repr

/-- A workspace's artifacts (§3).  `refs = none` models the ReferenceMap
artifact being missing or unreadable. -/
structure Ws where
  document : List Char
  refs : Option (List (List Char × List Char))
  editable : List Char
  restored : List Char
  meta : Meta
deriving DecidableEq, Repr

/-- The error of §4.2/§7 raised when the ReferenceMap artifact is missing or
unreadable. -/
inductive UpdateErr where
  | workspaceNotFoundError
deriving DecidableEq, Repr

/-- Modelled from the spec: `Update(workspacePath, editedText, status)` of
§4.2 — the missing newer `storage.update_workspace`.  Fails with
`WorkspaceNotFoundError` if the ReferenceMap artifact is missing or
unreadable; otherwise computes `restoredText = Restore(editedText,
referenceMap)`, overwrites EditableText and RestoredText, sets
`updated_at := now`, overwrites `status` when provided (any string, no
validation), and returns the restored text. -/
def update_workspace (ws : Ws) (editedText : List Char) (status : Option String)
    (now : String) : Except UpdateErr (List Char × Ws) :=
  match ws.refs with
  | none => .error .workspaceNotFoundError
  | some m =>
    let restoredText := restore_refs_in_text m editedText
    .ok (restoredText,
      { ws with
        editable := editedText
        restored := restoredText
        meta := { ws.meta with
                  updated_at := now
                  status := match status with
                            | some s => s
                            | none => ws.meta.status } })

end Spec

/-! ## Lemmas: the slugification pipeline -/

theorem toLower_fix {c : Char} (h : ¬(65 ≤ c.toNat ∧ c.toNat ≤ 90)) :
    Char.toLower c = c := by
  simp only [Char.toLower, ge_iff_le]
  rw [if_neg h]

theorem allowedU_eq (c : Char) : allowedU c = (allowedS c || decide (c = '_')) := rfl

theorem allowedS_bounds {c : Char} (h : allowedS c = true) :
    (97 ≤ c.toNat ∧ c.toNat ≤ 122) ∨ (48 ≤ c.toNat ∧ c.toNat ≤ 57) := by
  simp only [allowedS, Bool.or_eq_true, Bool.and_eq_true, decide_eq_true_eq] at h
  rcases h with ⟨h1, h2⟩ | ⟨h1, h2⟩ <;> rw [Char.le_def] at h1 h2
  · exact Or.inl ⟨h1, h2⟩
  · exact Or.inr ⟨h1, h2⟩

theorem allowedS_toLower {c : Char} (h : allowedS c = true) : Char.toLower c = c := by
  apply toLower_fix
  rcases allowedS_bounds h with ⟨h1, h2⟩ | ⟨h1, h2⟩ <;> omega

theorem allowedU_toLower {c : Char} (h : allowedU c = true) : Char.toLower c = c := by
  rw [allowedU_eq, Bool.or_eq_true, decide_eq_true_eq] at h
  rcases h with h | h
  · exact allowedS_toLower h
  · subst h; decide

theorem hyphen_toLower : Char.toLower '-' = '-' := by decide

theorem allowedS_ascii {c : Char} (h : allowedS c = true) : isAsciiChar c = true := by
  simp only [isAsciiChar, decide_eq_true_eq]
  rcases allowedS_bounds h with ⟨h1, h2⟩ | ⟨h1, h2⟩ <;> omega

theorem allowedU_ascii {c : Char} (h : allowedU c = true) : isAsciiChar c = true := by
  rw [allowedU_eq, Bool.or_eq_true, decide_eq_true_eq] at h
  rcases h with h | h
  · exact allowedS_ascii h
  · subst h; decide

theorem allowedS_not_hyphen {c : Char} (h : allowedS c = true) : c ≠ '-' := by
  intro hc; subst hc; simp [allowedS] at h

theorem allowedU_not_hyphen {c : Char} (h : allowedU c = true) : c ≠ '-' := by
  intro hc; subst hc; simp [allowedU] at h

theorem nfkdChar_ascii {c : Char} (h : isAsciiChar c = true) : nfkdChar c = [c] := by
  simp only [isAsciiChar, decide_eq_true_eq] at h
  simp [nfkdChar, h]

/-- Members of the output of `subRuns` are allowed characters or hyphens. -/
theorem subRuns_mem (allowed : Char → Bool) (b : Bool) (l : List Char) :
    ∀ c ∈ subRuns allowed b l, allowed c = true ∨ c = '-' := by
  induction l generalizing b with
  | nil => simp [subRuns]
  | cons x xs ih =>
    intro c hc
    simp only [subRuns] at hc
    by_cases hx : allowed x = true
    · rw [if_pos hx, List.mem_cons] at hc
      rcases hc with rfl | hc
      · exact Or.inl hx
      · exact ih false c hc
    · rw [if_neg hx] at hc
      cases b with
      | true =>
        rw [if_pos rfl] at hc
        exact ih true c hc
      | false =>
        simp only [Bool.false_eq_true, if_false, List.mem_cons] at hc
        rcases hc with rfl | hc
        · exact Or.inr rfl
        · exact ih true c hc

/-- Members of the output of `collapseHyphens` come from the input or are hyphens. -/
theorem collapseHyphens_mem (b : Bool) (l : List Char) :
    ∀ c ∈ collapseHyphens b l, c ∈ l := by
  induction l generalizing b with
  | nil => simp [collapseHyphens]
  | cons x xs ih =>
    intro c hc
    simp only [collapseHyphens] at hc
    by_cases hx : x = '-'
    · rw [if_pos hx] at hc
      cases b with
      | true => simp only [if_pos rfl] at hc; exact List.mem_cons_of_mem x (ih true c hc)
      | false =>
        simp only [Bool.false_eq_true, if_false, List.mem_cons] at hc
        rcases hc with rfl | hc
        · rw [hx]; exact List.mem_cons_self '-' xs
        · exact List.mem_cons_of_mem x (ih true c hc)
    · rw [if_neg hx, List.mem_cons] at hc
      rcases hc with rfl | hc
      · exact List.mem_cons_self c xs
      · exact List.mem_cons_of_mem x (ih false c hc)

theorem rstripHyphens_cons_nil {t : List Char} (c : Char) (ht : rstripHyphens t = []) :
    rstripHyphens (c :: t) = if c = '-' then [] else [c] := by
  simp [rstripHyphens, ht]

theorem rstripHyphens_cons_cons {t : List Char} {r : Char} {rs : List Char} (c : Char)
    (ht : rstripHyphens t = r :: rs) :
    rstripHyphens (c :: t) = c :: r :: rs := by
  simp [rstripHyphens, ht]

theorem rstripHyphens_sublist (l : List Char) : (rstripHyphens l).Sublist l := by
  induction l with
  | nil => simp [rstripHyphens]
  | cons c t ih =>
    cases h : rstripHyphens t with
    | nil =>
      rw [rstripHyphens_cons_nil c h]
      by_cases hc : c = '-'
      · simp [hc]
      · simp only [if_neg hc]
        exact (List.nil_sublist t).cons₂ c
    | cons r rs =>
      rw [rstripHyphens_cons_cons c h, ← h]
      exact ih.cons₂ c

theorem stripHyphens_sublist (l : List Char) : (stripHyphens l).Sublist l :=
  (rstripHyphens_sublist _).trans (List.dropWhile_sublist _)

theorem stripHyphens_mem {l : List Char} {c : Char} (h : c ∈ stripHyphens l) : c ∈ l :=
  (stripHyphens_sublist l).mem h

/-! Heads and invariants of `collapseHyphens` and `stripHyphens`. -/

theorem collapseHyphens_true_head (l : List Char) :
    (collapseHyphens true l).head? ≠ some '-' := by
  induction l with
  | nil => simp [collapseHyphens]
  | cons x xs ih =>
    rw [collapseHyphens]
    by_cases hx : x = '-'
    · rw [if_pos hx, if_pos rfl]; exact ih
    · rw [if_neg hx]; simpa using hx

theorem noDouble_cons {a : Char} {t : List Char} (h : noDouble (a :: t) = true) :
    noDouble t = true := by
  cases t with
  | nil => rfl
  | cons b t' =>
    rw [noDouble, Bool.and_eq_true] at h
    exact h.2

/-- `collapseHyphens` output never has two adjacent hyphens. -/
theorem collapseHyphens_noDouble (b : Bool) (l : List Char) :
    noDouble (collapseHyphens b l) = true := by
  induction l generalizing b with
  | nil => cases b <;> rfl
  | cons x xs ih =>
    rw [collapseHyphens]
    by_cases hx : x = '-'
    · rw [if_pos hx]
      cases b with
      | true => rw [if_pos rfl]; exact ih true
      | false =>
        simp only [Bool.false_eq_true, if_false]
        cases h : collapseHyphens true xs with
        | nil => rfl
        | cons y ys =>
          rw [noDouble, Bool.and_eq_true]
          constructor
          · have := collapseHyphens_true_head xs
            rw [h] at this
            simp only [List.head?_cons, ne_eq, Option.some.injEq] at this
            simp [this]
          · rw [← h]; exact ih true
    · rw [if_neg hx]
      cases h : collapseHyphens false xs with
      | nil => rfl
      | cons y ys =>
        rw [noDouble, Bool.and_eq_true]
        constructor
        · simp [hx]
        · rw [← h]; exact ih false

theorem rstripHyphens_head {l : List Char} (h : rstripHyphens l ≠ []) :
    (rstripHyphens l).head? = l.head? := by
  cases l with
  | nil => simp [rstripHyphens] at h
  | cons c t =>
    cases ht : rstripHyphens t with
    | nil =>
      rw [rstripHyphens_cons_nil c ht] at h ⊢
      by_cases hc : c = '-'
      · rw [if_pos hc] at h; simp at h
      · rw [if_neg hc]; rfl
    | cons r rs => rw [rstripHyphens_cons_cons c ht]; rfl

theorem rstripHyphens_noDouble {l : List Char} (h : noDouble l = true) :
    noDouble (rstripHyphens l) = true := by
  induction l with
  | nil => rfl
  | cons c t ih =>
    cases ht : rstripHyphens t with
    | nil =>
      rw [rstripHyphens_cons_nil c ht]
      by_cases hc : c = '-' <;> simp [hc, noDouble]
    | cons r rs =>
      rw [rstripHyphens_cons_cons c ht]
      have ihv := ih (noDouble_cons h)
      rw [ht] at ihv
      rw [noDouble, Bool.and_eq_true]
      refine ⟨?_, ihv⟩
      -- the head of `rstripHyphens t` is the head of `t`
      have hne : rstripHyphens t ≠ [] := by rw [ht]; simp
      have hh := rstripHyphens_head hne
      rw [ht] at hh
      cases t with
      | nil => simp [rstripHyphens] at ht
      | cons b t' =>
        simp only [List.head?_cons, Option.some.injEq] at hh
        rw [noDouble, Bool.and_eq_true] at h
        subst hh
        simp only [Bool.not_eq_true', Bool.and_eq_false_iff] at h ⊢
        exact h.1

theorem dropWhile_hyphen_head (l : List Char) :
    (l.dropWhile (fun c => c = '-')).head? ≠ some '-' := by
  induction l with
  | nil => simp
  | cons c t ih =>
    by_cases hc : c = '-'
    · rw [List.dropWhile_cons_of_pos (by simp [hc])]
      exact ih
    · rw [List.dropWhile_cons_of_neg (by simp [hc])]
      simpa using hc

theorem noDouble_dropWhile {l : List Char} (h : noDouble l = true) :
    noDouble (l.dropWhile (fun c => c = '-')) = true := by
  induction l with
  | nil => exact h
  | cons c t ih =>
    by_cases hc : c = '-'
    · rw [List.dropWhile_cons_of_pos (by simp [hc])]
      exact ih (noDouble_cons h)
    · rwa [List.dropWhile_cons_of_neg (by simp [hc])]

theorem rstripHyphens_getLast {l : List Char} :
    rstripHyphens l = [] ∨ (rstripHyphens l).getLast? ≠ some '-' := by
  induction l with
  | nil => exact Or.inl rfl
  | cons c t ih =>
    cases ht : rstripHyphens t with
    | nil =>
      rw [rstripHyphens_cons_nil c ht]
      by_cases hc : c = '-'
      · rw [if_pos hc]; exact Or.inl rfl
      · rw [if_neg hc]; right; simpa using hc
    | cons r rs =>
      rw [rstripHyphens_cons_cons c ht]
      right
      rcases ih with hnil | hlast
      · rw [ht] at hnil; simp at hnil
      · rw [ht] at hlast
        rwa [List.getLast?_cons_cons]

theorem stripHyphens_head (l : List Char) : (stripHyphens l).head? ≠ some '-' := by
  rw [stripHyphens]
  by_cases h : rstripHyphens (l.dropWhile (fun c => c = '-')) = []
  · rw [h]; simp
  · rw [rstripHyphens_head h]
    exact dropWhile_hyphen_head l

theorem stripHyphens_getLast (l : List Char) : (stripHyphens l).getLast? ≠ some '-' := by
  rw [stripHyphens]
  rcases rstripHyphens_getLast (l := l.dropWhile (fun c => c = '-')) with h | h
  · rw [h]; simp
  · exact h

theorem stripHyphens_noDouble {l : List Char} (h : noDouble l = true) :
    noDouble (stripHyphens l) = true :=
  rstripHyphens_noDouble (noDouble_dropWhile h)

/-! Identity of each pipeline stage on an already-slugified string. -/

theorem flatMap_nfkd_id {l : List Char} (h : ∀ c ∈ l, isAsciiChar c = true) :
    l.flatMap nfkdChar = l := by
  induction l with
  | nil => rfl
  | cons c t ih =>
    rw [List.flatMap_cons, nfkdChar_ascii (h c (List.mem_cons_self c t)),
      ih (fun x hx => h x (List.mem_cons_of_mem c hx))]
    rfl

theorem map_toLower_id {l : List Char} (h : ∀ c ∈ l, Char.toLower c = c) :
    l.map Char.toLower = l := by
  induction l with
  | nil => rfl
  | cons c t ih =>
    rw [List.map_cons, h c (List.mem_cons_self c t),
      ih (fun x hx => h x (List.mem_cons_of_mem c hx))]

theorem subRuns_id (allowed : Char → Bool) {l : List Char} (b : Bool)
    (hmem : ∀ c ∈ l, allowed c = true ∨ c = '-')
    (hnd : noDouble l = true)
    (hhd : b = true → l.head? ≠ some '-')
    (hall : allowed '-' = false) :
    subRuns allowed b l = l := by
  induction l generalizing b with
  | nil => rfl
  | cons c t ih =>
    rw [subRuns]
    rcases hmem c (List.mem_cons_self c t) with hc | hc
    · rw [if_pos hc]
      congr 1
      exact ih false (fun x hx => hmem x (List.mem_cons_of_mem c hx))
        (noDouble_cons hnd) (by simp)
    · subst hc
      have hcf : allowed '-' ≠ true := by rw [hall]; simp
      rw [if_neg hcf]
      cases b with
      | true => exact absurd rfl (hhd rfl)
      | false =>
        simp only [Bool.false_eq_true, if_false]
        congr 1
        refine ih true (fun x hx => hmem x (List.mem_cons_of_mem _ hx))
          (noDouble_cons hnd) ?_
        intro _
        cases t with
        | nil => simp
        | cons b' t' =>
          rw [noDouble, Bool.and_eq_true] at hnd
          have := hnd.1
          simp only [Bool.not_eq_true', Bool.and_eq_false_iff, decide_eq_false_iff_not] at this
          rcases this with h1 | h1
          · exact absurd trivial h1
          · simpa using h1

theorem collapseHyphens_id {l : List Char} (b : Bool)
    (hnd : noDouble l = true)
    (hhd : b = true → l.head? ≠ some '-') :
    collapseHyphens b l = l := by
  induction l generalizing b with
  | nil => rfl
  | cons c t ih =>
    rw [collapseHyphens]
    by_cases hc : c = '-'
    · subst hc
      rw [if_pos rfl]
      cases b with
      | true => exact absurd rfl (hhd rfl)
      | false =>
        simp only [Bool.false_eq_true, if_false]
        congr 1
        refine ih true (noDouble_cons hnd) ?_
        intro _
        cases t with
        | nil => simp
        | cons b' t' =>
          rw [noDouble, Bool.and_eq_true] at hnd
          have := hnd.1
          simp only [Bool.not_eq_true', Bool.and_eq_false_iff, decide_eq_false_iff_not] at this
          rcases this with h1 | h1
          · exact absurd trivial h1
          · simpa using h1
    · rw [if_neg hc]
      congr 1
      exact ih false (noDouble_cons hnd) (by simp)

theorem dropWhile_hyphen_id {l : List Char} (h : l.head? ≠ some '-') :
    l.dropWhile (fun c => c = '-') = l := by
  cases l with
  | nil => rfl
  | cons c t =>
    simp only [List.head?_cons, ne_eq, Option.some.injEq] at h
    rw [List.dropWhile_cons_of_neg (by simpa using h)]

theorem rstripHyphens_id {l : List Char} (h : l.getLast? ≠ some '-') :
    rstripHyphens l = l := by
  induction l with
  | nil => rfl
  | cons c t ih =>
    cases t with
    | nil =>
      simp only [List.getLast?_singleton, ne_eq, Option.some.injEq] at h
      have h0 : rstripHyphens ([] : List Char) = [] := rfl
      rw [rstripHyphens_cons_nil c h0, if_neg h]
    | cons b t' =>
      rw [List.getLast?_cons_cons] at h
      have ht := ih h
      rw [rstripHyphens_cons_cons c ht]

theorem stripHyphens_id {l : List Char} (hh : l.head? ≠ some '-')
    (hl : l.getLast? ≠ some '-') : stripHyphens l = l := by
  rw [stripHyphens, dropWhile_hyphen_id hh, rstripHyphens_id hl]

/-! The invariants of a slug and idempotence. -/

theorem slug_invariants (allowed : Char → Bool) (t : List Char) :
    (∀ c ∈ stripHyphens (collapseHyphens false (subRuns allowed false
        (((t.flatMap nfkdChar).filter isAsciiChar).map Char.toLower))),
      allowed c = true ∨ c = '-') ∧
    noDouble (stripHyphens (collapseHyphens false (subRuns allowed false
        (((t.flatMap nfkdChar).filter isAsciiChar).map Char.toLower)))) = true ∧
    (stripHyphens (collapseHyphens false (subRuns allowed false
        (((t.flatMap nfkdChar).filter isAsciiChar).map Char.toLower)))).head? ≠ some '-' ∧
    (stripHyphens (collapseHyphens false (subRuns allowed false
        (((t.flatMap nfkdChar).filter isAsciiChar).map Char.toLower)))).getLast? ≠ some '-' := by
  refine ⟨?_, ?_, stripHyphens_head _, stripHyphens_getLast _⟩
  · intro c hc
    have hc' := collapseHyphens_mem false _ c (stripHyphens_mem hc)
    exact subRuns_mem allowed false _ c hc'
  · exact stripHyphens_noDouble (collapseHyphens_noDouble false _)

/-- Idempotence of the common slugification pipeline, for any run-replacement
alphabet contained in ASCII, lowercase-invariant and hyphen-free. -/
theorem slug_idem (allowed : Char → Bool) (t : List Char)
    (hascii : ∀ c, allowed c = true → isAsciiChar c = true)
    (hlower : ∀ c, allowed c = true → Char.toLower c = c)
    (hhyph : allowed '-' = false) :
    stripHyphens (collapseHyphens false (subRuns allowed false
        ((((stripHyphens (collapseHyphens false (subRuns allowed false
            (((t.flatMap nfkdChar).filter isAsciiChar).map Char.toLower)))).flatMap
              nfkdChar).filter isAsciiChar).map Char.toLower))) =
    stripHyphens (collapseHyphens false (subRuns allowed false
        (((t.flatMap nfkdChar).filter isAsciiChar).map Char.toLower))) := by
  obtain ⟨hmem, hnd, hhd, hlast⟩ := slug_invariants allowed t
  set s := stripHyphens (collapseHyphens false (subRuns allowed false
    (((t.flatMap nfkdChar).filter isAsciiChar).map Char.toLower))) with hs
  have hasciiS : ∀ c ∈ s, isAsciiChar c = true := by
    intro c hc
    rcases hmem c hc with h | h
    · exact hascii c h
    · subst h; decide
  have h1 : s.flatMap nfkdChar = s := flatMap_nfkd_id hasciiS
  have h2 : s.filter isAsciiChar = s := List.filter_eq_self.mpr hasciiS
  have h3 : s.map Char.toLower = s := by
    refine map_toLower_id ?_
    intro c hc
    rcases hmem c hc with h | h
    · exact hlower c h
    · subst h; exact hyphen_toLower
  have h4 : subRuns allowed false s = s :=
    subRuns_id allowed false hmem hnd (by simp) hhyph
  have h5 : collapseHyphens false s = s := collapseHyphens_id false hnd (by simp)
  rw [h1, h2, h3, h4, h5, stripHyphens_id hhd hlast]

/-! Preservation of allowed characters through each pipeline stage. -/

theorem filter_sublist_flatMap {p : Char → Bool} {t : List Char}
    (h : ∀ c, p c = true → nfkdChar c = [c]) :
    (t.filter p).Sublist (t.flatMap nfkdChar) := by
  induction t with
  | nil => simp
  | cons c t' ih =>
    rw [List.flatMap_cons]
    by_cases hc : p c = true
    · rw [List.filter_cons_of_pos hc, h c hc]
      exact ih.cons₂ c
    · rw [List.filter_cons_of_neg (by simpa using hc)]
      exact ih.trans (List.sublist_append_right _ _)

theorem filter_sublist_subRuns (allowed : Char → Bool) (b : Bool) (l : List Char) :
    (l.filter allowed).Sublist (subRuns allowed b l) := by
  induction l generalizing b with
  | nil => simp [subRuns]
  | cons c cs ih =>
    rw [subRuns]
    by_cases hc : allowed c = true
    · rw [if_pos hc, List.filter_cons_of_pos hc]
      exact (ih false).cons₂ c
    · rw [if_neg hc, List.filter_cons_of_neg (by simpa using hc)]
      cases b with
      | true => rw [if_pos rfl]; exact ih true
      | false =>
        simp only [Bool.false_eq_true, if_false]
        exact (ih true).cons '-'

theorem sublist_collapseHyphens {s l : List Char} (h : s.Sublist l)
    (hs : ∀ c ∈ s, c ≠ '-') (b : Bool) : s.Sublist (collapseHyphens b l) := by
  induction h generalizing b with
  | slnil => simp
  | @cons l₁ l₂ a h ih =>
    rw [collapseHyphens]
    by_cases ha : a = '-'
    · rw [if_pos ha]
      cases b with
      | true => rw [if_pos rfl]; exact ih hs true
      | false =>
        simp only [Bool.false_eq_true, if_false]
        exact (ih hs true).cons '-'
    · rw [if_neg ha]
      exact (ih hs false).cons a
  | @cons₂ l₁ l₂ a h ih =>
    have ha : a ≠ '-' := hs a (List.mem_cons_self a l₁)
    rw [collapseHyphens, if_neg ha]
    exact (ih (fun c hc => hs c (List.mem_cons_of_mem a hc)) false).cons₂ a

theorem sublist_dropWhile_hyphen {s l : List Char} (h : s.Sublist l)
    (hs : ∀ c ∈ s, c ≠ '-') : s.Sublist (l.dropWhile (fun c => c = '-')) := by
  induction l generalizing s with
  | nil => simpa using h
  | cons c t ih =>
    by_cases hc : c = '-'
    · rw [List.dropWhile_cons_of_pos (by simp [hc])]
      cases h with
      | cons _ h' => exact ih h' hs
      | cons₂ _ h' =>
        exact absurd hc (hs c (List.mem_cons_self c _))
    · rwa [List.dropWhile_cons_of_neg (by simp [hc])]

theorem sublist_rstripHyphens {s l : List Char} (h : s.Sublist l)
    (hs : ∀ c ∈ s, c ≠ '-') : s.Sublist (rstripHyphens l) := by
  induction h with
  | slnil => simp
  | @cons l₁ l₂ a h ih =>
    cases ht : rstripHyphens l₂ with
    | nil =>
      have : l₁.Sublist ([] : List Char) := ht ▸ ih hs
      rw [List.sublist_nil] at this
      rw [this]
      exact List.nil_sublist _
    | cons r rs =>
      rw [rstripHyphens_cons_cons a ht]
      exact (ht ▸ ih hs).cons a
  | @cons₂ l₁ l₂ a h ih =>
    have ha : a ≠ '-' := hs a (List.mem_cons_self a l₁)
    have ih' := ih (fun c hc => hs c (List.mem_cons_of_mem a hc))
    cases ht : rstripHyphens l₂ with
    | nil =>
      have : l₁.Sublist ([] : List Char) := ht ▸ ih'
      rw [List.sublist_nil] at this
      rw [this, rstripHyphens_cons_nil a ht, if_neg ha]
    | cons r rs =>
      rw [rstripHyphens_cons_cons a ht]
      exact (ht ▸ ih').cons₂ a

/-- The characters of the title that already lie in the allowed class survive
slugification, in order. -/
theorem filter_sublist_slug (allowed : Char → Bool) (t : List Char)
    (hascii : ∀ c, allowed c = true → isAsciiChar c = true)
    (hlower : ∀ c, allowed c = true → Char.toLower c = c)
    (hhyph : allowed '-' = false) :
    (t.filter allowed).Sublist (stripHyphens (collapseHyphens false (subRuns allowed false
      (((t.flatMap nfkdChar).filter isAsciiChar).map Char.toLower)))) := by
  set F := t.filter allowed with hF
  have hFmem : ∀ c ∈ F, allowed c = true := fun c hc => List.of_mem_filter hc
  have hFnh : ∀ c ∈ F, c ≠ '-' := by
    intro c hc hceq
    subst hceq
    have := hFmem '-' hc
    rw [hhyph] at this
    simp at this
  -- step 1: into the NFKD expansion
  have s1 : F.Sublist (t.flatMap nfkdChar) :=
    filter_sublist_flatMap (fun c hc => nfkdChar_ascii (hascii c hc))
  -- step 2: into the ASCII filtrate
  have hFf : F.filter allowed = F :=
    List.filter_eq_self.mpr hFmem
  have hq : ∀ a ∈ t.flatMap nfkdChar, allowed a = (allowed a && isAsciiChar a) := by
    intro a _
    cases h : allowed a
    · simp
    · simp [hascii a h]
  have s2 : F.Sublist ((t.flatMap nfkdChar).filter isAsciiChar) := by
    have := s1.filter allowed
    rw [hFf] at this
    rw [List.filter_congr hq, ← List.filter_filter] at this
    exact this.trans (List.filter_sublist _)
  -- step 3: through lowercasing
  have hFl : F.map Char.toLower = F :=
    map_toLower_id (fun c hc => hlower c (hFmem c hc))
  have s3 : F.Sublist (((t.flatMap nfkdChar).filter isAsciiChar).map Char.toLower) := by
    have := s2.map Char.toLower
    rwa [hFl] at this
  -- step 4: through the run replacement
  have s4 : F.Sublist (subRuns allowed false
      (((t.flatMap nfkdChar).filter isAsciiChar).map Char.toLower)) := by
    have := s3.filter allowed
    rw [hFf] at this
    exact this.trans (filter_sublist_subRuns allowed false _)
  -- steps 5 and 6: hyphen collapsing and stripping keep non-hyphens
  have s5 := sublist_collapseHyphens s4 hFnh false
  rw [stripHyphens]
  exact sublist_rstripHyphens (sublist_dropWhile_hyphen s5 hFnh) hFnh

/-! ## Claim theorems: slugification -/

/-- C4: for every title, `Slugify` (the spec's §4.3 operation, implemented by
`utils.py`'s `slugify_title`) performs exactly the spec's pipeline
(NFKD-normalize, drop non-ASCII, lowercase, replace runs outside `[a-z0-9_]`
by a single hyphen, collapse repeated hyphens, trim hyphens): the code equals
the definition written from the spec's words, the output stays in the
alphabet `[a-z0-9_-]` with no doubled, leading or trailing hyphen, and every
character of the title already in `[a-z0-9_]` — the underscore included — is
preserved in order in the output. -/
theorem claim_C4_slugify (t : List Char) :
    Utils.slugify_title t = slugifySpec t ∧
    (∀ c ∈ Utils.slugify_title t, allowedU c = true ∨ c = '-') ∧
    noDouble (Utils.slugify_title t) = true ∧
    (Utils.slugify_title t).head? ≠ some '-' ∧
    (Utils.slugify_title t).getLast? ≠ some '-' ∧
    (t.filter allowedU).Sublist (Utils.slugify_title t) := by
  have hdef : Utils.slugify_title t =
      stripHyphens (collapseHyphens false (subRuns allowedU false
        (((t.flatMap nfkdChar).filter isAsciiChar).map Char.toLower))) := rfl
  obtain ⟨hmem, hnd, hhd, hlast⟩ := slug_invariants allowedU t
  refine ⟨rfl, ?_, ?_, ?_, ?_, ?_⟩
  · rw [hdef]; exact hmem
  · rw [hdef]; exact hnd
  · rw [hdef]; exact hhd
  · rw [hdef]; exact hlast
  · rw [hdef]
    exact filter_sublist_slug allowedU t (fun c => allowedU_ascii)
      (fun c => allowedU_toLower) (by decide)

/-- Witness for C4 at a concrete title: the underscore of `"A_b!"` is an
allowed character of the slug alphabet and survives in the slug. -/
theorem claim_C4_slugify_witness :
    (allowedU '_' = true ∨ '_' = '-') ∧ Utils.slugify_title "A_b!".data = slugifySpec "A_b!".data :=
  ⟨(claim_C4_slugify "A_b!".data).2.1 '_' (by decide), (claim_C4_slugify "A_b!".data).1⟩

/-- C10: both `slugify_title` variants are idempotent — re-slugifying a slug
returns it unchanged, for the `storage.py` (hyphen-only alphabet) and the
`utils.py` (underscore-inclusive alphabet) implementations alike. -/
theorem claim_C10_slugify_idempotent (t : List Char) :
    Storage.slugify_title (Storage.slugify_title t) = Storage.slugify_title t ∧
    Utils.slugify_title (Utils.slugify_title t) = Utils.slugify_title t := by
  constructor
  · exact slug_idem allowedS t (fun c => allowedS_ascii) (fun c => allowedS_toLower) (by decide)
  · exact slug_idem allowedU t (fun c => allowedU_ascii) (fun c => allowedU_toLower) (by decide)

/-! ## Lemmas: decimal keys -/

theorem digitChar_isDigit (n : Nat) : (digitChar n).isDigit = true := by
  unfold digitChar
  split <;> decide

theorem digitChar_val {n : Nat} (h : n < 10) : (digitChar n).toNat - 48 = n := by
  interval_cases n <;> decide

theorem toDigitsGo_fuel : ∀ f₁ f₂ n, n < f₁ → n < f₂ →
    toDigitsGo f₁ n = toDigitsGo f₂ n := by
  intro f₁
  induction f₁ with
  | zero => intro f₂ n h₁; omega
  | succ g ih =>
    intro f₂ n h₁ h₂
    cases f₂ with
    | zero => omega
    | succ h =>
      rw [toDigitsGo, toDigitsGo]
      by_cases hn : n < 10
      · rw [if_pos hn, if_pos hn]
      · rw [if_neg hn, if_neg hn]
        have hd : n / 10 < n := Nat.div_lt_self (by omega) (by omega)
        rw [ih g (n / 10) (by omega) (by omega), ih h (n / 10) (by omega) (by omega)]

theorem toDigits_unfold (n : Nat) :
    toDigits n = if n < 10 then [digitChar n]
                 else toDigits (n / 10) ++ [digitChar (n % 10)] := by
  rw [toDigits, toDigitsGo]
  by_cases hn : n < 10
  · rw [if_pos hn, if_pos hn]
  · rw [if_neg hn, if_neg hn, toDigits]
    have hd : n / 10 < n := Nat.div_lt_self (by omega) (by omega)
    rw [toDigitsGo_fuel n (n / 10 + 1) (n / 10) (by omega) (by omega)]

theorem toDigits_ne_nil (n : Nat) : toDigits n ≠ [] := by
  rw [toDigits_unfold]
  by_cases hn : n < 10
  · rw [if_pos hn]; simp
  · rw [if_neg hn]; simp

theorem toDigits_isDigit (n : Nat) : ∀ c ∈ toDigits n, c.isDigit = true := by
  induction n using Nat.strong_induction_on with
  | _ n ih =>
    rw [toDigits_unfold]
    by_cases hn : n < 10
    · rw [if_pos hn]
      intro c hc
      rw [List.mem_singleton] at hc
      subst hc
      exact digitChar_isDigit n
    · rw [if_neg hn]
      intro c hc
      rw [List.mem_append] at hc
      rcases hc with hc | hc
      · exact ih (n / 10) (Nat.div_lt_self (by omega) (by omega)) c hc
      · rw [List.mem_singleton] at hc
        subst hc
        exact digitChar_isDigit (n % 10)

theorem digitsVal_append_one (l : List Char) (c : Char) :
    digitsVal (l ++ [c]) = digitsVal l * 10 + (c.toNat - 48) := by
  rw [digitsVal, List.foldl_append]
  rfl

theorem digitsVal_toDigits (n : Nat) : digitsVal (toDigits n) = n := by
  induction n using Nat.strong_induction_on with
  | _ n ih =>
    rw [toDigits_unfold]
    by_cases hn : n < 10
    · rw [if_pos hn]
      show 0 * 10 + ((digitChar n).toNat - 48) = n
      rw [digitChar_val hn]
      omega
    · rw [if_neg hn, digitsVal_append_one,
        ih (n / 10) (Nat.div_lt_self (by omega) (by omega)),
        digitChar_val (Nat.mod_lt n (by omega))]
      omega

theorem toDigits_inj {a b : Nat} (h : toDigits a = toDigits b) : a = b := by
  have := digitsVal_toDigits a
  rw [h, digitsVal_toDigits] at this
  omega

theorem refKey_inj {a b : Nat} (h : refKey a = refKey b) : a = b := by
  rw [refKey, refKey] at h
  simp only [List.cons.injEq, true_and] at h
  exact toDigits_inj h

/-! ## Lemmas: the placeholder scanner -/

theorem takeWhile_append_stop {p : Char → Bool} {x : Char} (l₁ l₂ : List Char)
    (hx : p x = false) :
    (l₁ ++ x :: l₂).takeWhile p = l₁.takeWhile p := by
  induction l₁ with
  | nil => simp [List.takeWhile_cons, hx]
  | cons c t ih =>
    by_cases hc : p c = true
    · rw [List.cons_append, List.takeWhile_cons_of_pos hc,
        List.takeWhile_cons_of_pos hc, ih]
    · rw [List.cons_append, List.takeWhile_cons_of_neg (by simpa using hc),
        List.takeWhile_cons_of_neg (by simpa using hc)]

theorem dropWhile_append_stop {p : Char → Bool} {x : Char} (l₁ l₂ : List Char)
    (hx : p x = false) :
    (l₁ ++ x :: l₂).dropWhile p = l₁.dropWhile p ++ x :: l₂ := by
  induction l₁ with
  | nil => simp [List.dropWhile_cons, hx]
  | cons c t ih =>
    by_cases hc : p c = true
    · rw [List.cons_append, List.dropWhile_cons_of_pos hc,
        List.dropWhile_cons_of_pos hc, ih]
    · rw [List.cons_append, List.dropWhile_cons_of_neg (by simpa using hc),
        List.dropWhile_cons_of_neg (by simpa using hc), List.cons_append]

/-- Soundness of `pMatch`: a successful match decomposes its input. -/
theorem pMatch_sound {cs ds rest : List Char} (h : pMatch cs = some (ds, rest)) :
    cs = 'r' :: 'e' :: 'f' :: (ds ++ ']' :: rest) ∧ ds ≠ [] ∧
      ∀ c ∈ ds, c.isDigit = true := by
  match cs with
  | [] => exact absurd h (by simp [pMatch])
  | [c1] => exact absurd h (by simp [pMatch])
  | [c1, c2] => exact absurd h (by simp [pMatch])
  | c1 :: c2 :: c3 :: r0 =>
    rw [pMatch] at h
    split at h
    case isFalse => exact absurd h (by simp)
    case isTrue hcond =>
      obtain ⟨h1, h2, h3, hhd, hne⟩ := hcond
      subst h1; subst h2; subst h3
      injection h with h'
      injection h' with hds hrest
      subst hds
      subst hrest
      refine ⟨?_, by simpa [List.isEmpty_iff] using hne,
        fun c hc => List.mem_takeWhile_imp hc⟩
      have hsplit := List.takeWhile_append_dropWhile Char.isDigit r0
      have hdw : r0.dropWhile Char.isDigit =
          ']' :: (r0.dropWhile Char.isDigit).tail := by
        cases hd : r0.dropWhile Char.isDigit with
        | nil => rw [hd] at hhd; simp at hhd
        | cons y ys =>
          rw [hd] at hhd
          simp only [List.head?_cons, Option.some.injEq] at hhd
          rw [hhd]
          rfl
      conv_lhs => rw [← hsplit, hdw]

/-- Completeness of `pMatch`: a well-formed token parses. -/
theorem pMatch_complete {ds : List Char} (rest : List Char) (hne : ds ≠ [])
    (hdig : ∀ c ∈ ds, c.isDigit = true) :
    pMatch ('r' :: 'e' :: 'f' :: (ds ++ ']' :: rest)) = some (ds, rest) := by
  have htw : (ds ++ ']' :: rest).takeWhile Char.isDigit = ds := by
    rw [takeWhile_append_stop ds rest (by decide)]
    exact List.takeWhile_eq_self_iff.mpr hdig
  have hdw : (ds ++ ']' :: rest).dropWhile Char.isDigit = ']' :: rest := by
    rw [dropWhile_append_stop ds rest (by decide)]
    have : ds.dropWhile Char.isDigit = [] := by
      rw [List.dropWhile_eq_nil_iff]
      exact hdig
    rw [this, List.nil_append]
  rw [pMatch, if_pos]
  · rw [htw, hdw]
    rfl
  · exact ⟨rfl, rfl, rfl, by rw [hdw]; rfl,
      by rw [htw]; simpa [List.isEmpty_iff] using hne⟩

theorem pMatch_length {cs ds rest : List Char} (h : pMatch cs = some (ds, rest)) :
    rest.length < cs.length := by
  obtain ⟨hcs, -, -⟩ := pMatch_sound h
  rw [hcs]
  simp only [List.length_cons, List.length_append]
  omega

/-! ## Lemmas: the restoration scan -/

theorem goRestore_fuel (m : List (List Char × List Char)) :
    ∀ f₁ f₂ l, l.length ≤ f₁ → l.length ≤ f₂ →
      goRestore m f₁ l = goRestore m f₂ l := by
  intro f₁
  induction f₁ with
  | zero =>
    intro f₂ l h₁ _
    have : l = [] := by
      cases l with
      | nil => rfl
      | cons c cs => simp at h₁
    subst this
    cases f₂ <;> rfl
  | succ g ih =>
    intro f₂ l h₁ h₂
    cases l with
    | nil => cases f₂ <;> rfl
    | cons c cs =>
      cases f₂ with
      | zero => simp at h₂
      | succ g₂ =>
        rw [goRestore, goRestore]
        simp only [List.length_cons] at h₁ h₂
        by_cases hc : c = '['
        · rw [if_pos hc, if_pos hc]
          cases hp : pMatch cs with
          | none =>
            dsimp only
            rw [ih g₂ cs (by omega) (by omega)]
          | some p =>
            obtain ⟨ds, rest⟩ := p
            have hlen := pMatch_length hp
            dsimp only
            rw [ih g₂ rest (by omega) (by omega)]
        · rw [if_neg hc, if_neg hc, ih g₂ cs (by omega) (by omega)]

theorem restore_nil (m : List (List Char × List Char)) :
    restore_refs_in_text m [] = [] := rfl

theorem restore_cons_ne (m : List (List Char × List Char)) {c : Char}
    (cs : List Char) (hc : c ≠ '[') :
    restore_refs_in_text m (c :: cs) = c :: restore_refs_in_text m cs := by
  rw [restore_refs_in_text, restore_refs_in_text, List.length_cons, goRestore,
    if_neg hc]

theorem restore_bracket_none (m : List (List Char × List Char)) {cs : List Char}
    (hp : pMatch cs = none) :
    restore_refs_in_text m ('[' :: cs) = '[' :: restore_refs_in_text m cs := by
  rw [restore_refs_in_text, restore_refs_in_text, List.length_cons, goRestore,
    if_pos rfl, hp]

theorem restore_bracket_some (m : List (List Char × List Char))
    {cs ds rest : List Char} (hp : pMatch cs = some (ds, rest)) :
    restore_refs_in_text m ('[' :: cs) =
      lookupSub m ds ++ restore_refs_in_text m rest := by
  rw [restore_refs_in_text, restore_refs_in_text, List.length_cons, goRestore,
    if_pos rfl, hp]
  dsimp only
  have hlen := pMatch_length hp
  rw [goRestore_fuel m cs.length rest.length rest (by omega) (by omega)]

/-- A text without a placeholder match is left unchanged by restoration. -/
theorem restore_of_no_match (m : List (List Char × List Char)) {l : List Char}
    (h : hasPH l = false) : restore_refs_in_text m l = l := by
  induction l with
  | nil => rfl
  | cons c cs ih =>
    rw [hasPH, Bool.or_eq_false_iff] at h
    obtain ⟨h1, h2⟩ := h
    by_cases hc : c = '['
    · subst hc
      rw [if_pos rfl] at h1
      cases hp : pMatch cs with
      | some p => rw [hp] at h1; simp at h1
      | none => rw [restore_bracket_none m hp, ih h2]
    · rw [restore_cons_ne m cs hc, ih h2]

/-- A match inside `u ++ '[' :: v` cannot extend past the `'['`: `u` itself
already starts with a complete token. -/
theorem pMatch_through {u v ds rest : List Char}
    (h : pMatch (u ++ '[' :: v) = some (ds, rest)) :
    ∃ u₄, pMatch u = some (ds, u₄) ∧ rest = u₄ ++ '[' :: v := by
  match u with
  | [] =>
    obtain ⟨hcs, -, -⟩ := pMatch_sound h
    rw [List.nil_append] at hcs
    injection hcs with h1 _
    exact absurd h1 (by decide)
  | [c1] =>
    obtain ⟨hcs, -, -⟩ := pMatch_sound h
    rw [List.singleton_append] at hcs
    injection hcs with _ h2
    injection h2 with h2 _
    exact absurd h2 (by decide)
  | [c1, c2] =>
    obtain ⟨hcs, -, -⟩ := pMatch_sound h
    injection hcs with _ h2
    injection h2 with _ h3
    injection h3 with h3 _
    exact absurd h3 (by decide)
  | c1 :: c2 :: c3 :: u₃ =>
    obtain ⟨hcs, hne, hdig⟩ := pMatch_sound h
    simp only [List.cons_append, List.cons.injEq] at hcs
    obtain ⟨h1, h2, h3, hrest⟩ := hcs
    subst h1; subst h2; subst h3
    -- `u₃ ++ '[' :: v = ds ++ ']' :: rest`; compare with the digit run of `u₃`
    have hds : (u₃ ++ '[' :: v).takeWhile Char.isDigit = ds := by
      rw [hrest, takeWhile_append_stop ds rest (by decide)]
      exact List.takeWhile_eq_self_iff.mpr hdig
    rw [takeWhile_append_stop u₃ v (by decide)] at hds
    have hdw : (u₃ ++ '[' :: v).dropWhile Char.isDigit = ']' :: rest := by
      rw [hrest, dropWhile_append_stop ds rest (by decide)]
      have : ds.dropWhile Char.isDigit = [] := by
        rw [List.dropWhile_eq_nil_iff]; exact hdig
      rw [this, List.nil_append]
    rw [dropWhile_append_stop u₃ v (by decide)] at hdw
    -- so the dropWhile of `u₃` itself starts with `']'`
    cases hd3 : u₃.dropWhile Char.isDigit with
    | nil =>
      rw [hd3, List.nil_append] at hdw
      injection hdw with hbr _
      exact absurd hbr (by decide)
    | cons y u₄ =>
      rw [hd3, List.cons_append] at hdw
      injection hdw with hy hrest2
      subst hy
      refine ⟨u₄, ?_, hrest2.symm⟩
      have hu₃ : u₃ = ds ++ ']' :: u₄ := by
        conv_lhs => rw [← List.takeWhile_append_dropWhile Char.isDigit u₃, hds, hd3]
      rw [hu₃]
      exact pMatch_complete u₄ hne hdig

/-- The central stepping lemma: scanning a clean prefix, then a placeholder
token, substitutes exactly that token and continues after it. -/
theorem restore_step (m : List (List Char × List Char)) {u ds : List Char}
    (rest : List Char) (hu : hasPH u = false) (hne : ds ≠ [])
    (hdig : ∀ c ∈ ds, c.isDigit = true) :
    restore_refs_in_text m (u ++ '[' :: 'r' :: 'e' :: 'f' :: (ds ++ ']' :: rest)) =
      u ++ lookupSub m ds ++ restore_refs_in_text m rest := by
  induction u with
  | nil =>
    rw [List.nil_append, List.nil_append,
      restore_bracket_some m (pMatch_complete rest hne hdig)]
  | cons c u' ih =>
    rw [hasPH, Bool.or_eq_false_iff] at hu
    obtain ⟨h1, h2⟩ := hu
    by_cases hc : c = '['
    · subst hc
      rw [if_pos rfl] at h1
      have hnone : pMatch (u' ++ '[' :: 'r' :: 'e' :: 'f' :: (ds ++ ']' :: rest)) = none := by
        cases hp : pMatch (u' ++ '[' :: 'r' :: 'e' :: 'f' :: (ds ++ ']' :: rest)) with
        | none => rfl
        | some p =>
          obtain ⟨ds', rest'⟩ := p
          obtain ⟨u₄, hu₄, -⟩ := pMatch_through hp
          rw [hu₄] at h1
          simp at h1
        
      rw [List.cons_append, restore_bracket_none m hnone, ih h2]
      simp [List.append_assoc]
    · rw [List.cons_append, restore_cons_ne m _ hc, ih h2]
      simp [List.append_assoc]

/-! ## Lemmas: extraction -/

theorem spansOk_le {c : Nat} {sp : List (Nat × Nat)} {len : Nat}
    (h : spansOk c sp len = true) : c ≤ len := by
  induction sp generalizing c with
  | nil => simpa [spansOk] using h
  | cons p r ih =>
    obtain ⟨s, e⟩ := p
    simp only [spansOk, Bool.and_eq_true, decide_eq_true_eq] at h
    exact le_trans (le_trans h.1.1 h.1.2) (ih h.2)

theorem spansOk_head_le {e : Nat} {r : List (Nat × Nat)} {len : Nat}
    (h : spansOk e r len = true) : ∀ p ∈ r, e ≤ p.1 := by
  induction r generalizing e with
  | nil => simp
  | cons q r' ih =>
    obtain ⟨s', e'⟩ := q
    simp only [spansOk, Bool.and_eq_true, decide_eq_true_eq] at h
    intro p hp
    rw [List.mem_cons] at hp
    rcases hp with rfl | hp
    · exact h.1.1
    · exact le_trans (le_trans h.1.1 h.1.2) (ih h.2 p hp)

theorem spansOk_sorted {c : Nat} {sp : List (Nat × Nat)} {len : Nat}
    (h : spansOk c sp len = true) :
    sp.Sorted (fun a b => a.1 ≤ b.1) := by
  induction sp generalizing c with
  | nil => exact List.sorted_nil
  | cons p r ih =>
    obtain ⟨s, e⟩ := p
    simp only [spansOk, Bool.and_eq_true, decide_eq_true_eq] at h
    rw [List.sorted_cons]
    exact ⟨fun b hb => le_trans h.1.2 (spansOk_head_le h.2 b hb), ih h.2⟩

/-- Two sorted permutations are equal when one of them has strictly
increasing keys. -/
theorem sorted_perm_unique : ∀ {l₁ l₂ : List (Nat × Nat)}, l₁.Perm l₂ →
    l₁.Sorted (fun a b => a.1 ≤ b.1) → l₂.Pairwise (fun a b => a.1 < b.1) →
    l₁ = l₂ := by
  intro l₁ l₂ hp h₁ h₂
  induction l₂ generalizing l₁ with
  | nil => exact hp.eq_nil
  | cons b t₂ ih =>
    cases l₁ with
    | nil => exact absurd hp.symm (by simp)
    | cons a t₁ =>
      have hab : a = b := by
        by_contra hne
        have ha : a ∈ b :: t₂ := hp.mem_iff.mp (List.mem_cons_self a t₁)
        rw [List.mem_cons] at ha
        rcases ha with rfl | ha
        · exact hne rfl
        · have hba : b ∈ a :: t₁ := hp.mem_iff.mpr (List.mem_cons_self b t₂)
          rw [List.mem_cons] at hba
          rcases hba with rfl | hba
          · exact hne rfl
          · have h1 : a.1 ≤ b.1 := (List.sorted_cons.mp h₁).1 b hba
            have h2 : b.1 < a.1 := (List.pairwise_cons.mp h₂).1 a ha
            omega
      subst hab
      have hp' := hp.cons_inv
      rw [ih hp' (List.sorted_cons.mp h₁).2 (List.pairwise_cons.mp h₂).2]

theorem buildMap_keys (text : List Char) :
    ∀ (sp : List (Nat × Nat)) (i : Nat),
      (buildMap text sp i).map Prod.fst = (List.range' i sp.length).map refKey := by
  intro sp
  induction sp with
  | nil => intro i; rfl
  | cons p r ih =>
    intro i
    obtain ⟨s, e⟩ := p
    rw [buildMap, List.map_cons, List.length_cons, List.range'_succ, List.map_cons,
      ih (i + 1)]

theorem buildMap_lookup (text : List Char) :
    ∀ (sp : List (Nat × Nat)) (i j : Nat) (h : j < sp.length),
      List.lookup (refKey (i + j)) (buildMap text sp i) =
        some (sliceStr text (sp.get ⟨j, h⟩).1 (sp.get ⟨j, h⟩).2) := by
  intro sp
  induction sp with
  | nil => intro i j h; simp at h
  | cons p r ih =>
    intro i j h
    obtain ⟨s, e⟩ := p
    cases j with
    | zero =>
      rw [Nat.add_zero, buildMap]
      simp [List.lookup]
    | succ j' =>
      rw [buildMap, List.lookup_cons]
      have hne : (refKey (i + (j' + 1)) == refKey i) = false := by
        rw [beq_eq_false_iff_ne]
        intro hk
        have := refKey_inj hk
        omega
      rw [hne]
      have harith : i + (j' + 1) = (i + 1) + j' := by omega
      rw [harith]
      exact ih (i + 1) j' (by simpa using h)

/-- The reverse-order replacement loop produces the gap/placeholder
interleaving: replacing the spans of `sp` (numbered from `i`) in `text`
leaves the prefix up to the cursor `c` intact and interleaves the gap slices
with the placeholder tokens after it. -/
theorem applyReplacements_chunks (text : List Char) :
    ∀ (sp : List (Nat × Nat)) (i c : Nat), spansOk c sp text.length = true →
      applyReplacements sp i text = text.take c ++ chunks text c sp i := by
  intro sp
  induction sp with
  | nil =>
    intro i c _
    rw [applyReplacements, chunks, List.take_append_drop]
  | cons p r ih =>
    intro i c h
    obtain ⟨s, e⟩ := p
    simp only [spansOk, Bool.and_eq_true, decide_eq_true_eq] at h
    obtain ⟨⟨hcs, hse⟩, hr⟩ := h
    have helen : e ≤ text.length := spansOk_le hr
    rw [applyReplacements, chunks]
    have hM := ih (i + 1) e hr
    simp only [hM]
    have hlen : (text.take e).length = e := by
      rw [List.length_take]
      omega
    have htake : (text.take e ++ chunks text e r (i + 1)).take s = text.take s := by
      rw [List.take_append_of_le_length (by omega), List.take_take]
      congr 1
      omega
    have hdrop : (text.take e ++ chunks text e r (i + 1)).drop e = chunks text e r (i + 1) := by
      have hdl := List.drop_left (text.take e) (chunks text e r (i + 1))
      rwa [hlen] at hdl
    rw [htake, hdrop]
    have hsplit : text.take s = text.take c ++ sliceStr text c s := by
      rw [sliceStr]
      have : s = c + (s - c) := by omega
      conv_lhs => rw [this]
      exact List.take_add text c (s - c)
    rw [hsplit]
    simp [List.append_assoc]

/-- Restoring the interleaving of clean gaps and placeholder tokens with a
map that stores the exact slice for each key reproduces the original text
after the cursor. -/
theorem restore_chunks (text : List Char) (m : List (List Char × List Char)) :
    ∀ (sp : List (Nat × Nat)) (c i : Nat), spansOk c sp text.length = true →
      gapsClean text c sp = true →
      (∀ (j : Nat) (h : j < sp.length), List.lookup (refKey (i + j)) m =
        some (sliceStr text (sp.get ⟨j, h⟩).1 (sp.get ⟨j, h⟩).2)) →
      restore_refs_in_text m (chunks text c sp i) = text.drop c := by
  intro sp
  induction sp with
  | nil =>
    intro c i _ hg _
    rw [chunks]
    rw [gapsClean, Bool.not_eq_true'] at hg
    exact restore_of_no_match m hg
  | cons p r ih =>
    intro c i h hg hm
    obtain ⟨s, e⟩ := p
    simp only [spansOk, Bool.and_eq_true, decide_eq_true_eq] at h
    obtain ⟨⟨hcs, hse⟩, hr⟩ := h
    have helen : e ≤ text.length := spansOk_le hr
    rw [gapsClean, Bool.and_eq_true, Bool.not_eq_true'] at hg
    obtain ⟨hg1, hg2⟩ := hg
    rw [chunks]
    have hph : placeholder i ++ chunks text e r (i + 1) =
        '[' :: 'r' :: 'e' :: 'f' :: (toDigits i ++ ']' :: chunks text e r (i + 1)) := by
      rw [placeholder, refKey]
      simp
    rw [List.append_assoc, hph, restore_step m (chunks text e r (i + 1)) hg1
      (toDigits_ne_nil i) (toDigits_isDigit i)]
    have hlook : lookupSub m (toDigits i) = sliceStr text s e := by
      rw [lookupSub]
      have h0 := hm 0 (by simp)
      rw [Nat.add_zero] at h0
      have : ('r' :: 'e' :: 'f' :: toDigits i) = refKey i := rfl
      rw [this, h0]
      rfl
    have hrec : restore_refs_in_text m (chunks text e r (i + 1)) = text.drop e := by
      refine ih e (i + 1) hr hg2 ?_
      intro j hj
      have harith : (i + 1) + j = i + (j + 1) := by omega
      rw [harith]
      exact hm (j + 1) (by simpa using hj)
    rw [hlook, hrec]
    -- `slice c s ++ slice s e ++ drop e = drop c`
    have h1 : text.drop c = sliceStr text c s ++ text.drop s := by
      rw [sliceStr]
      conv_lhs => rw [← List.take_append_drop (s - c) (text.drop c)]
      rw [List.drop_drop]
      congr 2
      omega
    have h2 : text.drop s = sliceStr text s e ++ text.drop e := by
      rw [sliceStr]
      conv_lhs => rw [← List.take_append_drop (e - s) (text.drop s)]
      rw [List.drop_drop]
      congr 2
      omega
    rw [h1, h2, List.append_assoc]

/-! ## Claim theorems: extraction and restoration -/

/-- C1 (amended): the round trip `Restore(Extract(D)) = D` holds for every
document and scanner span list such that the spans are ordered, disjoint and
in bounds and the text outside the spans contains no occurrence of the
placeholder pattern `\[ref<digits>\]`; the hypothesis on the gaps is
necessary (see the counterexample), and covers documents with zero, one,
duplicate-content, adjacent or multi-line tag occurrences. -/
theorem claim_C1_roundtrip_amended (text : List Char) (tags : List (Nat × Nat))
    (hok : spansOk 0 tags text.length = true)
    (hclean : gapsClean text 0 tags = true) :
    restore_refs_in_text (extract_refs_from_text tags text).2
      (extract_refs_from_text tags text).1 = text := by
  have hsorted : tags.Sorted (fun a b => a.1 ≤ b.1) := spansOk_sorted hok
  have hids : List.insertionSort (fun a b => a.1 ≤ b.1) tags = tags :=
    hsorted.insertionSort_eq
  simp only [extract_refs_from_text]
  rw [hids, applyReplacements_chunks text tags 1 0 hok, List.take_zero,
    List.nil_append,
    restore_chunks text (buildMap text tags 1) tags 0 1 hok hclean
      (fun j hj => buildMap_lookup text tags 1 j hj), List.drop_zero]

/-- C1 (counterexample): the claim's unconditional round trip fails on the
document `"[ref1]<ref>a</ref>"`, which already contains the literal token
`[ref1]`: its single tag span is valid scanner output (the slice is exactly
`<ref>a</ref>`), yet restoring the extraction gives
`"<ref>a</ref><ref>a</ref>"`, not the document. -/
theorem claim_C1_roundtrip_counterexample :
    spansOk 0 [(6, 18)] "[ref1]<ref>a</ref>".data.length = true ∧
    isRefSlice (sliceStr "[ref1]<ref>a</ref>".data 6 18) = true ∧
    restore_refs_in_text (extract_refs_from_text [(6, 18)] "[ref1]<ref>a</ref>".data).2
        (extract_refs_from_text [(6, 18)] "[ref1]<ref>a</ref>".data).1 ≠
      "[ref1]<ref>a</ref>".data :=
  ⟨by decide, by decide, by decide⟩

/-- Witness for the amended C1 at the spec's §8 example document with three
tags (plain, self-closing with attribute, plain). -/
theorem claim_C1_roundtrip_amended_witness :
    (spansOk 0 [(1, 17), (18, 34), (35, 51)]
        "A<ref>First</ref>B<ref name=\"x\" />C<ref>Third</ref>".data.length = true ∧
     gapsClean "A<ref>First</ref>B<ref name=\"x\" />C<ref>Third</ref>".data 0
        [(1, 17), (18, 34), (35, 51)] = true) ∧
    restore_refs_in_text
        (extract_refs_from_text [(1, 17), (18, 34), (35, 51)]
          "A<ref>First</ref>B<ref name=\"x\" />C<ref>Third</ref>".data).2
        (extract_refs_from_text [(1, 17), (18, 34), (35, 51)]
          "A<ref>First</ref>B<ref name=\"x\" />C<ref>Third</ref>".data).1 =
      "A<ref>First</ref>B<ref name=\"x\" />C<ref>Third</ref>".data :=
  ⟨⟨by decide, by decide⟩,
    claim_C1_roundtrip_amended _ [(1, 17), (18, 34), (35, 51)] (by decide) (by decide)⟩

/-- C3: restoration substitutes a placeholder token whose key is present in
the map by the exact stored string, leaves a token with an absent key
unchanged verbatim, continues after it, and changes nothing in
placeholder-free text (total function — no error, nothing removed). -/
theorem claim_C3_restore_behavior (m : List (List Char × List Char))
    (u ds rest : List Char) (hu : hasPH u = false) (hne : ds ≠ [])
    (hdig : ∀ c ∈ ds, c.isDigit = true) :
    (∀ v, List.lookup ('r' :: 'e' :: 'f' :: ds) m = some v →
      restore_refs_in_text m (u ++ '[' :: 'r' :: 'e' :: 'f' :: (ds ++ ']' :: rest)) =
        u ++ v ++ restore_refs_in_text m rest) ∧
    (List.lookup ('r' :: 'e' :: 'f' :: ds) m = none →
      restore_refs_in_text m (u ++ '[' :: 'r' :: 'e' :: 'f' :: (ds ++ ']' :: rest)) =
        u ++ ('[' :: 'r' :: 'e' :: 'f' :: (ds ++ [']'])) ++ restore_refs_in_text m rest) ∧
    restore_refs_in_text m u = u := by
  refine ⟨?_, ?_, restore_of_no_match m hu⟩
  · intro v hv
    rw [restore_step m rest hu hne hdig, lookupSub, hv]
  · intro hv
    rw [restore_step m rest hu hne hdig, lookupSub, hv]

/-- Witness for C3 at the spec's example: `[ref99]` has no key in the map and
is preserved; `[ref1]` is substituted by the exact stored tag. -/
theorem claim_C3_restore_behavior_witness :
    restore_refs_in_text [("ref1".data, "<ref>X</ref>".data)] "Hello [ref99]".data =
        "Hello [ref99]".data ∧
    restore_refs_in_text [("ref1".data, "<ref>X</ref>".data)] "Hello [ref1]".data =
        "Hello <ref>X</ref>".data := by
  constructor
  · have h := (claim_C3_restore_behavior [("ref1".data, "<ref>X</ref>".data)]
      "Hello ".data ['9', '9'] [] (by decide) (by decide) (by decide)).2.1 (by decide)
    have e1 : "Hello [ref99]".data =
        "Hello ".data ++ '[' :: 'r' :: 'e' :: 'f' :: ((['9', '9'] : List Char) ++ ']' :: ([] : List Char)) := by
      decide
    rw [e1, h, restore_nil]
    decide
  · have h := (claim_C3_restore_behavior [("ref1".data, "<ref>X</ref>".data)]
      "Hello ".data ['1'] [] (by decide) (by decide) (by decide)).1
      "<ref>X</ref>".data (by decide)
    have e1 : "Hello [ref1]".data =
        "Hello ".data ++ '[' :: 'r' :: 'e' :: 'f' :: ((['1'] : List Char) ++ ']' :: ([] : List Char)) := by
      decide
    rw [e1, h, restore_nil]
    decide

/-- C2: extraction numbers the spans `ref1 … refN` densely in strictly
increasing start order, independently of the order in which the scanner
listed them, and each key maps to the exact original slice
`text[start:end]`. -/
theorem claim_C2_extract_map (text : List Char) (tags sp : List (Nat × Nat))
    (hperm : tags.Perm sp)
    (hstrict : sp.Pairwise (fun a b => a.1 < b.1))
    (hok : spansOk 0 sp text.length = true) :
    extract_refs_from_text tags text = extract_refs_from_text sp text ∧
    (extract_refs_from_text sp text).2.map Prod.fst =
      (List.range' 1 sp.length).map refKey ∧
    ∀ (j : Nat) (h : j < sp.length),
      List.lookup (refKey (1 + j)) (extract_refs_from_text sp text).2 =
        some (sliceStr text (sp.get ⟨j, h⟩).1 (sp.get ⟨j, h⟩).2) := by
  have hsorted : sp.Sorted (fun a b => a.1 ≤ b.1) := spansOk_sorted hok
  have hsp : List.insertionSort (fun a b => a.1 ≤ b.1) sp = sp :=
    hsorted.insertionSort_eq
  have htags : List.insertionSort (fun a b => a.1 ≤ b.1) tags = sp := by
    refine sorted_perm_unique ?_ ?_ hstrict
    · exact (List.perm_insertionSort _ tags).trans hperm
    · exact List.sorted_insertionSort _ tags
  refine ⟨?_, ?_, ?_⟩
  · simp only [extract_refs_from_text]
    rw [htags, hsp]
  · simp only [extract_refs_from_text]
    rw [hsp]
    exact buildMap_keys text sp 1
  · intro j hj
    simp only [extract_refs_from_text]
    rw [hsp]
    exact buildMap_lookup text sp 1 j hj

/-- Witness for C2: with the three spans of the §8 document given to the
extractor in scrambled order, the map keys come out as `ref1, ref2, ref3` in
document order and `ref2` maps to the exact slice of the middle tag. -/
theorem claim_C2_extract_map_witness :
    extract_refs_from_text [(18, 34), (35, 51), (1, 17)]
        "A<ref>First</ref>B<ref name=\"x\" />C<ref>Third</ref>".data =
      extract_refs_from_text [(1, 17), (18, 34), (35, 51)]
        "A<ref>First</ref>B<ref name=\"x\" />C<ref>Third</ref>".data ∧
    List.lookup (refKey 2)
        (extract_refs_from_text [(1, 17), (18, 34), (35, 51)]
          "A<ref>First</ref>B<ref name=\"x\" />C<ref>Third</ref>".data).2 =
      some (sliceStr "A<ref>First</ref>B<ref name=\"x\" />C<ref>Third</ref>".data 18 34) := by
  have h := claim_C2_extract_map
    "A<ref>First</ref>B<ref name=\"x\" />C<ref>Third</ref>".data
    [(18, 34), (35, 51), (1, 17)] [(1, 17), (18, 34), (35, 51)]
    (by decide) (by decide) (by decide)
  refine ⟨h.1, ?_⟩
  have h2 := h.2.2 1 (by decide)
  simpa using h2


theorem hasSubstr_single {c : Char} {l : List Char} (h : c ∈ l) :
    hasSubstr [c] l = true := by
  induction l with
  | nil => simp at h
  | cons x t ih =>
    rw [hasSubstr]
    rw [List.mem_cons] at h
    rcases h with rfl | h
    · simp [List.isPrefixOf]
    · rw [ih h]
      simp

/-! ## Claim theorems: path safety -/

/-- C5 (counterexample): the validator accepts the slug `"."` — it is
non-empty, contains none of `".."`, `"/"`, `"\"` and is not reserved — and
returns the storage root itself, which is not a direct child of the root
(its parent is not the root).  The claim "accepts only when the canonical
result is a direct child" is therefore false as stated. -/
theorem claim_C5_path_safety_counterexample :
    safe_workspace_path ["data".data] ".".data = some ["data".data] ∧
    parentPath ["data".data] ≠ ["data".data] :=
  ⟨by decide, by decide⟩

/-- C5 (amended): the validator rejects exactly the claimed slugs (empty,
containing `".."`, `"/"` or `"\"`, or a reserved device name,
case-insensitively); any other slug is accepted, and the returned canonical
path is the direct child `root/slug` for every accepted slug except `"."`,
which pathlib collapses at the join so that the root itself is returned. -/
theorem claim_C5_path_safety_amended (root : FsPath) (slug : List Char) :
    ((hasSubstr "..".data slug = true ∨ hasSubstr "/".data slug = true ∨
        hasSubstr "\\".data slug = true ∨
        reservedNames.contains (slug.map Char.toLower) = true ∨ slug = []) →
      safe_workspace_path root slug = none) ∧
    (hasSubstr "..".data slug = false → hasSubstr "/".data slug = false →
      hasSubstr "\\".data slug = false →
      reservedNames.contains (slug.map Char.toLower) = false → slug ≠ [] →
      safe_workspace_path root slug = some (pyJoin root slug) ∧
      (slug ≠ ['.'] → pyJoin root slug = root ++ [slug] ∧
        parentPath (pyJoin root slug) = root) ∧
      (slug = ['.'] → pyJoin root slug = root)) := by
  constructor
  · intro h
    rw [safe_workspace_path]
    rcases h with h | h | h | h | h
    · rw [if_pos (by rw [h]; simp)]
    · rw [if_pos (by rw [h]; simp)]
    · rw [if_pos (by rw [h]; simp)]
    · by_cases h3 : (hasSubstr "..".data slug || hasSubstr "/".data slug ||
          hasSubstr "\\".data slug) = true
      · rw [if_pos h3]
      · rw [if_neg h3, if_pos h]
    · subst h
      simp [hasSubstr, reservedNames]
  · intro h1 h2 h3 h4 h5
    have hjoin : safe_workspace_path root slug = some (pyJoin root slug) := by
      rw [safe_workspace_path, if_neg (by rw [h1, h2, h3]; simp), if_neg (by rw [h4]; simp),
        if_neg (by simpa [List.isEmpty_iff] using h5)]
      by_cases hdot : slug = ['.']
      · rw [pyJoin, if_pos hdot, if_neg (by simp)]
      · rw [pyJoin, if_neg hdot]
        by_cases hroot : root = []
        · subst hroot
          have hnp : ((renderPath ([] : FsPath) ++ ['/']).isPrefixOf
              (renderPath (([] : FsPath) ++ [slug]))) = false := by
            rw [Bool.eq_false_iff]
            intro hpre
            rw [List.isPrefixOf_iff_prefix] at hpre
            obtain ⟨t, ht⟩ := hpre
            have hrs : renderPath (([] : FsPath) ++ [slug]) = '/' :: slug := by
              rw [List.nil_append, renderPath, if_neg (by simp)]
              simp
            have hr0 : renderPath ([] : FsPath) = ['/'] := rfl
            rw [hrs, hr0] at ht
            simp only [List.append_assoc, List.singleton_append] at ht
            injection ht with _ ht'
            have hmem : '/' ∈ slug := by rw [← ht']; simp
            rw [hasSubstr_single hmem] at h2
            simp at h2
          rw [if_pos (by rw [hnp]; simp), if_neg (by simp [parentPath])]
        · have hrooteq : renderPath (root ++ [slug]) = renderPath root ++ '/' :: slug := by
            rw [renderPath, renderPath, if_neg (by simp), if_neg (by simpa using hroot)]
            rw [List.foldl_append]
            rfl
          have hp : ((renderPath root ++ ['/']).isPrefixOf
              (renderPath (root ++ [slug]))) = true := by
            rw [hrooteq, List.isPrefixOf_iff_prefix]
            exact ⟨slug, by simp⟩
          rw [if_neg (by rw [hp]; simp)]
    refine ⟨hjoin, ?_, ?_⟩
    · intro hdot
      have hres : pyJoin root slug = root ++ [slug] := by rw [pyJoin, if_neg hdot]
      refine ⟨hres, ?_⟩
      rw [hres, parentPath]
      simp
    · intro hdot
      rw [pyJoin, if_pos hdot]

/-- Witness for the amended C5: `"my-doc"` is accepted under `"/data"` and
resolves to the direct child; `"."` is accepted and resolves to the root. -/
theorem claim_C5_path_safety_amended_witness :
    safe_workspace_path ["data".data] "my-doc".data =
      some (pyJoin ["data".data] "my-doc".data) ∧
    pyJoin ["data".data] "my-doc".data = ["data".data] ++ ["my-doc".data] ∧
    parentPath (pyJoin ["data".data] "my-doc".data) = ["data".data] := by
  have h := (claim_C5_path_safety_amended ["data".data] "my-doc".data).2
    (by decide) (by decide) (by decide) (by decide) (by decide)
  exact ⟨h.1, (h.2.1 (by decide)).1, (h.2.1 (by decide)).2⟩

/-! ## Claim theorems: workspace creation -/

/-- C6: when the workspace already exists (its Document artifact
`original.wiki` is present at the resolved path), `create_workspace` returns
the existing slug and path with `is_new = False` and leaves the store
untouched; and calling it twice with the same title and root yields the same
slug, `is_new = False` the second time, with the store — hence the stored
Document — unchanged by the second call. -/
theorem claim_C6_create_idempotent (store : StoreC) (root : FsPath) (title : String)
    (wikitext : List Char) (tags : List (Nat × Nat)) (now now₂ : String) (p : FsPath)
    (hne : Storage.slugify_title title.data ≠ [])
    (hsafe : safe_workspace_path root (Storage.slugify_title title.data) = some p) :
    (∀ d : WsDirC, store p = some d → d.original.isSome = true →
      create_workspace store root title wikitext tags now =
        .ok (String.mk (Storage.slugify_title title.data), p, false, store)) ∧
    (∃ (st₁ : StoreC) (b₁ : Bool),
      create_workspace store root title wikitext tags now =
        .ok (String.mk (Storage.slugify_title title.data), p, b₁, st₁) ∧
      create_workspace st₁ root title wikitext tags now₂ =
        .ok (String.mk (Storage.slugify_title title.data), p, false, st₁) ∧
      ((st₁ p).bind (·.original)).isSome = true) := by
  have hemp : (Storage.slugify_title title.data).isEmpty = false := by
    simpa [List.isEmpty_iff] using hne
  constructor
  · intro d hd ho
    rw [create_workspace, if_neg (by rw [hemp]; simp), hsafe]
    dsimp only
    have hnew : (!((store p).bind fun x => x.original).isSome) = false := by
      rw [hd]
      show (!(d.original).isSome) = false
      rw [ho]
      rfl
    rw [hnew]
    simp
  · by_cases hex : ((store p).bind (·.original)).isSome = true
    · refine ⟨store, false, ?_, ?_, hex⟩ <;>
        · rw [create_workspace, if_neg (by rw [hemp]; simp), hsafe]
          dsimp only
          rw [show (!((store p).bind fun x => x.original).isSome) = false by rw [hex]; rfl]
          simp
    · have hex' : ((store p).bind (·.original)).isSome = false := by
        simpa using hex
      set extracted := extract_refs_from_text tags wikitext with hextr
      set dir : WsDirC :=
        { original := some wikitext
          refs := some extracted.2
          editable := some extracted.1
          restored := some wikitext
          meta := some { title_original := title,
                         slug := String.mk (Storage.slugify_title title.data),
                         created_at := now, updated_at := now,
                         refs_count := extracted.2.length } } with hdir
      refine ⟨setStore store p dir, true, ?_, ?_, ?_⟩
      · rw [create_workspace, if_neg (by rw [hemp]; simp), hsafe]
        dsimp only
        rw [show (!((store p).bind fun x => x.original).isSome) = true by rw [hex']; rfl]
        rw [if_pos rfl]
      · rw [create_workspace, if_neg (by rw [hemp]; simp), hsafe]
        dsimp only
        have hset : setStore store p dir p = some dir := by
          rw [setStore, if_pos rfl]
        rw [show (!((setStore store p dir p).bind fun x => x.original).isSome) = false by
          rw [hset]; rfl]
        simp
      · rw [setStore, if_pos rfl]
        rfl

/-- Witness for C6 at a concrete store, root and title. -/
theorem claim_C6_create_idempotent_witness :
    ∃ (st₁ : StoreC) (b₁ : Bool),
      create_workspace (fun _ => none) ["ws".data] "My Doc" "x<ref>a</ref>".data
          [(1, 13)] "T1" =
        .ok (String.mk (Storage.slugify_title "My Doc".data),
          ["ws".data, "my-doc".data], b₁, st₁) ∧
      create_workspace st₁ ["ws".data] "My Doc" "x<ref>a</ref>".data [(1, 13)] "T2" =
        .ok (String.mk (Storage.slugify_title "My Doc".data),
          ["ws".data, "my-doc".data], false, st₁) ∧
      ((st₁ ["ws".data, "my-doc".data]).bind (·.original)).isSome = true :=
  (claim_C6_create_idempotent (fun _ => none) ["ws".data] "My Doc"
    "x<ref>a</ref>".data [(1, 13)] "T1" "T2" ["ws".data, "my-doc".data]
    (by decide) (by decide)).2

/-! ## Claim theorems: workspace update (modelled from the spec) -/

/-- C7: `Update` fails with `WorkspaceNotFoundError` exactly when the
ReferenceMap artifact is missing or unreadable; otherwise it overwrites
EditableText with the edited text, overwrites RestoredText with
`Restore(editedText, referenceMap)`, and returns that restored text. -/
theorem claim_C7_update_behavior (ws : Spec.Ws) (editedText : List Char)
    (status : Option String) (now : String) :
    (ws.refs = none →
      Spec.update_workspace ws editedText status now =
        .error .workspaceNotFoundError) ∧
    (∀ m, ws.refs = some m →
      ∃ ws', Spec.update_workspace ws editedText status now =
          .ok (restore_refs_in_text m editedText, ws') ∧
        ws'.editable = editedText ∧
        ws'.restored = restore_refs_in_text m editedText) := by
  constructor
  · intro h
    rw [Spec.update_workspace.eq_def, h]
  · intro m h
    refine ⟨{ ws with
        editable := editedText
        restored := restore_refs_in_text m editedText
        meta := { ws.meta with
                  updated_at := now
                  status := match status with
                            | some s => s
                            | none => ws.meta.status } }, ?_, rfl, rfl⟩
    rw [Spec.update_workspace.eq_def, h]

/-- Witness for C7: a workspace with a readable map is updated and returns
the restored text; one with a missing map fails with
`WorkspaceNotFoundError`. -/
theorem claim_C7_update_behavior_witness :
    (Spec.update_workspace
        ⟨"d".data, none, "e".data, "r".data, ⟨"T", "t", "C", "U", 0, "processing"⟩⟩
        "x".data none "T9" = .error .workspaceNotFoundError) ∧
    ∃ ws', Spec.update_workspace
        ⟨"d".data, some [("ref1".data, "<ref>a</ref>".data)], "e".data, "r".data,
          ⟨"T", "t", "C", "U", 0, "processing"⟩⟩
        "y[ref1]".data none "T9" =
      .ok (restore_refs_in_text [("ref1".data, "<ref>a</ref>".data)] "y[ref1]".data, ws') ∧
      ws'.editable = "y[ref1]".data ∧
      ws'.restored = restore_refs_in_text [("ref1".data, "<ref>a</ref>".data)] "y[ref1]".data :=
  ⟨(claim_C7_update_behavior _ "x".data none "T9").1 rfl,
    (claim_C7_update_behavior _ "y[ref1]".data none "T9").2 _ rfl⟩

/-- C8: every successful `Update` sets `WorkspaceMetadata.updated_at` to the
current time, and when a status string is provided — any string, with no
validation — it overwrites `WorkspaceMetadata.status`; when no status is
provided the previous status is kept. -/
theorem claim_C8_update_metadata (ws : Spec.Ws) (editedText : List Char)
    (now : String) (m : List (List Char × List Char)) (h : ws.refs = some m) :
    (∀ svalue : String, ∃ r ws',
      Spec.update_workspace ws editedText (some svalue) now = .ok (r, ws') ∧
      ws'.meta.updated_at = now ∧ ws'.meta.status = svalue) ∧
    (∃ r ws₂, Spec.update_workspace ws editedText none now = .ok (r, ws₂) ∧
      ws₂.meta.updated_at = now ∧ ws₂.meta.status = ws.meta.status) := by
  constructor
  · intro svalue
    refine ⟨restore_refs_in_text m editedText,
      { ws with
        editable := editedText
        restored := restore_refs_in_text m editedText
        meta := { ws.meta with updated_at := now, status := svalue } }, ?_, rfl, rfl⟩
    rw [Spec.update_workspace.eq_def, h]
  · refine ⟨restore_refs_in_text m editedText,
      { ws with
        editable := editedText
        restored := restore_refs_in_text m editedText
        meta := { ws.meta with updated_at := now, status := ws.meta.status } }, ?_, rfl, rfl⟩
    rw [Spec.update_workspace.eq_def, h]

/-- Witness for C8 with an arbitrary non-enumerated status string. -/
theorem claim_C8_update_metadata_witness :
    ∃ r ws', Spec.update_workspace
        ⟨"d".data, some [("ref1".data, "<ref>a</ref>".data)], "e".data, "r".data,
          ⟨"T", "t", "C", "U", 0, "processing"⟩⟩
        "y".data (some "anything-goes") "T9" = .ok (r, ws') ∧
      ws'.meta.updated_at = "T9" ∧ ws'.meta.status = "anything-goes" :=
  (claim_C8_update_metadata _ "y".data "T9" [("ref1".data, "<ref>a</ref>".data)] rfl).1
    "anything-goes"

/-! ## Claim theorems: workspace listing -/

theorem list_workspaces_filterMap_eq (root : FsPath) (entries : List DirEntry) :
    entries.filterMap (fun e => if e.isDir then e.meta.map (mkWsInfo root e) else none) =
      (entries.filter (fun e => e.isDir && e.meta.isSome)).map
        (fun e => mkWsInfo root e (e.meta.getD ⟨none, none, none, none⟩)) := by
  induction entries with
  | nil => rfl
  | cons e t ih =>
    by_cases hd : e.isDir = true
    · cases hm : e.meta with
      | none =>
        simp [List.filterMap_cons, List.filter_cons, hd, hm, ih]
      | some mt =>
        simp [List.filterMap_cons, List.filter_cons, hd, hm, ih]
    · have hd' : e.isDir = false := by simpa using hd
      simp [List.filterMap_cons, List.filter_cons, hd', ih]

/-- C9: listing of a missing root is empty; listing never fails — entries
whose metadata is missing or unparsable are silently skipped — and the
result is exactly the well-formed entries (as a permutation), ordered by
`updated_at` descending. -/
theorem claim_C9_list_workspaces (root : FsPath) (entries : List DirEntry) :
    list_workspaces root false entries = [] ∧
    List.Sorted byUpdatedDesc (list_workspaces root true entries) ∧
    (list_workspaces root true entries).Perm
      ((entries.filter (fun e => e.isDir && e.meta.isSome)).map
        (fun e => mkWsInfo root e (e.meta.getD ⟨none, none, none, none⟩))) ∧
    (∀ w ∈ list_workspaces root true entries,
      ∃ e ∈ entries, e.isDir = true ∧ ∃ mt, e.meta = some mt ∧ w = mkWsInfo root e mt) := by
  have hunfold : list_workspaces root true entries =
      List.insertionSort byUpdatedDesc
        (entries.filterMap (fun e => if e.isDir then e.meta.map (mkWsInfo root e) else none)) := by
    rw [list_workspaces]
    rfl
  refine ⟨rfl, ?_, ?_, ?_⟩
  · rw [hunfold]
    exact List.sorted_insertionSort byUpdatedDesc _
  · rw [hunfold, list_workspaces_filterMap_eq]
    exact List.perm_insertionSort _ _
  · intro w hw
    rw [hunfold] at hw
    have hw' := (List.perm_insertionSort byUpdatedDesc _).mem_iff.mp hw
    rw [List.mem_filterMap] at hw'
    obtain ⟨e, he, hfe⟩ := hw'
    by_cases hd : e.isDir = true
    · rw [if_pos hd] at hfe
      cases hm : e.meta with
      | none => rw [hm] at hfe; simp at hfe
      | some mt =>
        rw [hm] at hfe
        simp only [Option.map_some', Option.some.injEq] at hfe
        exact ⟨e, he, hd, mt, hm, hfe.symm⟩
    · rw [if_neg hd] at hfe
      simp at hfe

/-- Witness for C9: a root with one good workspace, one corrupt-metadata
directory and one plain file lists exactly the good workspace. -/
theorem claim_C9_list_workspaces_witness :
    ∃ e ∈ [⟨"good", true, some ⟨some "Good", some "C1", some "U1", some 2⟩⟩,
           ⟨"corrupt", true, none⟩, ⟨"stray.txt", false, none⟩],
      e.isDir = true ∧ ∃ mt, e.meta = some mt ∧
        mkWsInfo ["r".data] ⟨"good", true, some ⟨some "Good", some "C1", some "U1", some 2⟩⟩
          ⟨some "Good", some "C1", some "U1", some 2⟩ = mkWsInfo ["r".data] e mt :=
  (claim_C9_list_workspaces ["r".data]
      [⟨"good", true, some ⟨some "Good", some "C1", some "U1", some 2⟩⟩,
       ⟨"corrupt", true, none⟩, ⟨"stray.txt", false, none⟩]).2.2.2
    (mkWsInfo ["r".data] ⟨"good", true, some ⟨some "Good", some "C1", some "U1", some 2⟩⟩
      ⟨some "Good", some "C1", some "U1", some 2⟩)
    (by decide)

end WikiHelper









